import Mathlib

/-!
# Verification of the Uptimer worker core

A shallow embedding, in Lean 4, of the interval/uptime algorithms of
`apps/worker/src/routes/public.ts` and of the webhook dispatch pipeline of
`apps/worker/src/notify/webhook.ts`, together with proofs of the
specification claims about them.

Modelling conventions:
* JavaScript numbers that hold whole seconds, ids or HTTP statuses are
  modelled as `Int` (all the code paths embedded here only ever produce
  integers from integer inputs, so `Number` arithmetic is exact).
* `Number.isFinite` guards are vacuously true in the `Int` model and are
  noted where they occur in the source.
* Fallible platform primitives (D1, `fetch`, WebCrypto, WHATWG `URL`)
  are either given explicit outcome parameters or abstracted as function
  parameters; everything the repository itself computes is embedded.
-/

set_option maxHeartbeats 1000000

namespace Uptimer

/-- `type Interval = { start: number; end: number }` from
`apps/worker/src/routes/public.ts`.  The field `end` is a Lean keyword, so
it is rendered `stop`. -/
structure Interval where
  start : Int
  stop : Int
deriving DecidableEq, Repr

/-- `ensureInterval` from `public.ts` (lines 145–149): drops empty or
reversed intervals.  The `Number.isFinite` tests of the source are
vacuously true for `Int`. -/
def ensureInterval (interval : Interval) : Option Interval :=
  if interval.stop ≤ interval.start then none else some interval

/-- `pushMergedInterval` from `public.ts` (lines 151–158): append `next`
to `intervals`, merging it into the last element when it starts at or
before that element's end.  The same statement sequence forms the loop
body of `mergeIntervals` (lines 95–110), so both are embedded through
this one function. -/
def pushMergedInterval : List Interval → Interval → List Interval
  | [], next => [next]
  | [last], next =>
    if next.start ≤ last.stop then [⟨last.start, max last.stop next.stop⟩]
    else [last, next]
  | x :: y :: xs, next => x :: pushMergedInterval (y :: xs) next

/-- The comparator `(a, b) => a.start - b.start` used by `mergeIntervals`. -/
def startLe (a b : Interval) : Prop := a.start ≤ b.start

instance : DecidableRel startLe := fun a b => by
  unfold startLe; infer_instance

/-- The stable sort `[...intervals].sort((a, b) => a.start - b.start)` of
`mergeIntervals`.  JavaScript's `Array.prototype.sort` is specified to be
stable, and any stable sort by the same key computes the same list, so a
stable insertion sort is a faithful embedding. -/
def sortByStart (l : List Interval) : List Interval :=
  l.insertionSort startLe

/-- `mergeIntervals` from `public.ts` (lines 86–113): sort by `start`,
then fold the merge step.  The `if (!first)`/`if (!cur)`/`if (!prev)`
guards of the source are dead in a typed model (no `undefined` elements;
the accumulator is never empty) and are omitted. -/
def mergeIntervals (intervals : List Interval) : List Interval :=
  match sortByStart intervals with
  | [] => []
  | first :: rest => rest.foldl pushMergedInterval [⟨first.start, first.stop⟩]

/-- `sumIntervals` from `public.ts` (lines 115–117). -/
def sumIntervals (intervals : List Interval) : Int :=
  intervals.foldl (fun acc it => acc + max 0 (it.stop - it.start)) 0

/-- `overlapSeconds` from `public.ts` (lines 119–143): the two-pointer
sweep over two interval lists.  The `if (!x || !y) break` guard is dead
in the typed model. -/
def overlapSeconds : List Interval → List Interval → Int
  | [], _ => 0
  | _ :: _, [] => 0
  | x :: xs, y :: ys =>
    let s := max x.start y.start
    let e := min x.stop y.stop
    (if s < e then e - s else 0) +
      (if x.stop ≤ y.stop then overlapSeconds xs (y :: ys)
       else overlapSeconds (x :: xs) ys)
termination_by a b => a.length + b.length

/-- A point `t` lies inside one of the intervals of `l`. -/
def Covers (l : List Interval) (t : Int) : Prop :=
  ∃ it ∈ l, it.start ≤ t ∧ t < it.stop

instance (l : List Interval) (t : Int) : Decidable (Covers l t) := by
  unfold Covers; infer_instance

/-- The set of integer points covered by an interval list. -/
def pointSet (l : List Interval) : Finset ℤ :=
  l.foldr (fun it acc => Finset.Ico it.start it.stop ∪ acc) ∅

/-- Structural invariant produced by the merging code: every interval is
nonempty and each one ends strictly before the next begins. -/
def IChain (l : List Interval) : Prop :=
  (∀ it ∈ l, it.start < it.stop) ∧ l.Chain' (fun a b => a.stop < b.start)

/-- `IChain` plus containment in the window `[lo, hi)`. -/
def IChainIn (lo hi : Int) (l : List Interval) : Prop :=
  IChain l ∧ ∀ it ∈ l, lo ≤ it.start ∧ it.stop ≤ hi

/-- A `check_results` row as consumed by `buildUnknownIntervals`:
`{ checked_at: number; status: string }`. -/
structure CheckRow where
  checked_at : Int
  status : String
deriving DecidableEq, Repr

/-- The local helper `addUnknown` of `buildUnknownIntervals`
(`public.ts` lines 176–180). -/
def addUnknown (unknown : List Interval) (lo hi : Int) : List Interval :=
  match ensureInterval ⟨lo, hi⟩ with
  | none => unknown
  | some it => pushMergedInterval unknown it

/-- The local helper `processSegment` of `buildUnknownIntervals`
(`public.ts` lines 182–206), as a function of the captured mutable state
`lastCheck` and of the accumulated `unknown` list. -/
def processSegment (lastCheck : Option CheckRow) (intervalSec : Int)
    (unknown : List Interval) (segStart segEnd : Int) : List Interval :=
  if segEnd ≤ segStart then unknown
  else
    match lastCheck with
    | none => addUnknown unknown segStart segEnd
    | some lc =>
      let validUntil := lc.checked_at + intervalSec * 2
      if validUntil ≤ segStart then addUnknown unknown segStart segEnd
      else
        let coveredEnd := min segEnd validUntil
        let u1 := if lc.status = ("unknown" : String) then addUnknown unknown segStart coveredEnd
                  else unknown
        if coveredEnd < segEnd then addUnknown u1 coveredEnd segEnd else u1

/-- The mutable state of the `for (const check of checks)` loop of
`buildUnknownIntervals`: `lastCheck`, `cursor`, the accumulated `unknown`
list, and whether the loop has executed `break`. -/
structure UnkState where
  lastCheck : Option CheckRow
  cursor : Int
  unknown : List Interval
  broke : Bool
deriving Repr

/-- One iteration of the `for (const check of checks)` loop of
`buildUnknownIntervals` (`public.ts` lines 208–220). -/
def unkStep (rangeStart rangeEnd intervalSec : Int) (st : UnkState)
    (check : CheckRow) : UnkState :=
  if st.broke then st
  else if check.checked_at < rangeStart then { st with lastCheck := some check }
  else if rangeEnd ≤ check.checked_at then { st with broke := true }
  else
    { lastCheck := some check
      cursor := check.checked_at
      unknown := processSegment st.lastCheck intervalSec st.unknown st.cursor check.checked_at
      broke := false }

/-- `buildUnknownIntervals` from `public.ts` (lines 160–224).  The
`!Number.isFinite(intervalSec)` disjunct of the source is vacuously false
for `Int`. -/
def buildUnknownIntervals (rangeStart rangeEnd intervalSec : Int)
    (checks : List CheckRow) : List Interval :=
  if rangeEnd ≤ rangeStart then []
  else if intervalSec ≤ 0 then [⟨rangeStart, rangeEnd⟩]
  else
    let st := checks.foldl (unkStep rangeStart rangeEnd intervalSec)
      ⟨none, rangeStart, [], false⟩
    processSegment st.lastCheck intervalSec st.unknown st.cursor rangeEnd

/-- An `outages` row as consumed by the uptime endpoints:
`{ started_at: number; ended_at: number | null }`. -/
structure OutageRow where
  started_at : Int
  ended_at : Option Int
deriving DecidableEq, Repr

/-- `toCheckStatus` from `public.ts` (lines 74–84). -/
def toCheckStatus (value : Option String) : String :=
  match value with
  | some s =>
    if s = ("up" : String) ∨ s = ("down" : String) ∨ s = ("maintenance" : String) ∨
        s = ("unknown" : String) then s
    else ("unknown" : String)
  | none => ("unknown" : String)

/-- The clipped, merged downtime intervals of the uptime computation
(`public.ts` lines 837–845 and 918–925): outage rows are clipped to the
window, empty intervals dropped, and the rest merged. -/
def downtimeIntervals (rangeStart rangeEnd : Int) (outages : List OutageRow) :
    List Interval :=
  mergeIntervals
    ((outages.map fun r =>
        Interval.mk (max r.started_at rangeStart)
          (min (r.ended_at.getD rangeEnd) rangeEnd)).filter
      fun it => it.start < it.stop)

/-- The totals computed by `GET /monitors/:id/uptime` (`public.ts` lines
822–877) and, identically, by `computePartialUptimeTotals` (lines
892–958): `total_sec`, `downtime_sec`, `unknown_sec`, `uptime_sec` and
`uptime_pct`.  The percentage is exact rational arithmetic; the route's
IEEE-754 `(uptime_sec / total_sec) * 100` is this value rounded, which no
claim depends on. -/
structure UptimeTotals where
  total_sec : Int
  downtime_sec : Int
  unknown_sec : Int
  uptime_sec : Int
  uptime_pct : ℚ
deriving DecidableEq, Repr

/-- The percentage expression `total_sec === 0 ? 0 : (uptime_sec /
total_sec) * 100` that appears verbatim in `GET /monitors/:id/uptime`
(`public.ts` line 877) and twice in `GET /analytics/uptime` (lines 1055
and 1070), in exact rational arithmetic. -/
def uptimePct (total_sec uptime_sec : Int) : ℚ :=
  if total_sec = 0 then 0 else ((uptime_sec : ℚ) / (total_sec : ℚ)) * 100

/-- The uptime computation shared by `GET /monitors/:id/uptime` and
`computePartialUptimeTotals` in `public.ts`. -/
def uptimeTotals (rangeStart rangeEnd intervalSec : Int)
    (outages : List OutageRow) (checks : List CheckRow) : UptimeTotals :=
  let total_sec := max 0 (rangeEnd - rangeStart)
  let downtime := downtimeIntervals rangeStart rangeEnd outages
  let downtime_sec := sumIntervals downtime
  let unknown := buildUnknownIntervals rangeStart rangeEnd intervalSec checks
  let unknown_sec := max 0 (sumIntervals unknown - overlapSeconds unknown downtime)
  let unavailable_sec := min total_sec (downtime_sec + unknown_sec)
  let uptime_sec := max 0 (total_sec - unavailable_sec)
  ⟨total_sec, downtime_sec, unknown_sec, uptime_sec, uptimePct total_sec uptime_sec⟩

/-! ## Structural lemmas about `pushMergedInterval` and `mergeIntervals` -/

theorem covers_nil (t : Int) : ¬ Covers [] t := by
  simp [Covers]

theorem covers_cons {x : Interval} {l : List Interval} {t : Int} :
    Covers (x :: l) t ↔ (x.start ≤ t ∧ t < x.stop) ∨ Covers l t := by
  constructor
  · rintro ⟨it, hit, h⟩
    rcases List.mem_cons.mp hit with rfl | hmem
    · exact Or.inl h
    · exact Or.inr ⟨it, hmem, h⟩
  · rintro (h | ⟨it, hmem, h⟩)
    · exact ⟨x, List.mem_cons_self _ _, h⟩
    · exact ⟨it, List.mem_cons_of_mem _ hmem, h⟩

theorem getLast?_cons_ne_nil {α : Type _} (x : α) {l : List α} (h : l ≠ []) :
    (x :: l).getLast? = l.getLast? := by
  match l with
  | [] => exact absurd rfl h
  | y :: ys => exact List.getLast?_cons_cons

theorem pushMergedInterval_ne_nil (l : List Interval) (n : Interval) :
    pushMergedInterval l n ≠ [] := by
  match l with
  | [] => simp [pushMergedInterval]
  | [last] =>
    unfold pushMergedInterval
    by_cases h : n.start ≤ last.stop <;> simp [h]
  | x :: y :: xs =>
    simp [pushMergedInterval]

theorem pushMergedInterval_head_start (l : List Interval) (n : Interval) (h : l ≠ []) :
    (pushMergedInterval l n).head?.map Interval.start = l.head?.map Interval.start := by
  match l with
  | [] => exact absurd rfl h
  | [last] =>
    unfold pushMergedInterval
    by_cases hm : n.start ≤ last.stop <;> simp [hm]
  | x :: y :: xs =>
    simp [pushMergedInterval]

theorem pushMergedInterval_getLast_start (l : List Interval) (n : Interval) :
    ∃ last', (pushMergedInterval l n).getLast? = some last' ∧
      (l.getLast?.map Interval.start = some last'.start ∨ last'.start = n.start) := by
  match l with
  | [] => exact ⟨n, by simp [pushMergedInterval]⟩
  | [last] =>
    unfold pushMergedInterval
    by_cases hm : n.start ≤ last.stop
    · exact ⟨⟨last.start, max last.stop n.stop⟩, by simp [hm]⟩
    · exact ⟨n, by simp [hm]⟩
  | x :: y :: xs =>
    obtain ⟨last', h1, h2⟩ := pushMergedInterval_getLast_start (y :: xs) n
    refine ⟨last', ?_, ?_⟩
    · rw [pushMergedInterval, getLast?_cons_ne_nil _ (pushMergedInterval_ne_nil _ _), h1]
    · rcases h2 with h2 | h2
      · exact Or.inl (by rw [← h2, List.getLast?_cons_cons])
      · exact Or.inr h2

/-- Appending an interval that starts strictly after the accumulated
list ends is a plain append. -/
theorem pushMergedInterval_of_gap (l : List Interval) (n : Interval)
    (h : ∀ last ∈ l.getLast?, last.stop < n.start) :
    pushMergedInterval l n = l ++ [n] := by
  match l with
  | [] => simp [pushMergedInterval]
  | [last] =>
    have hl : last.stop < n.start := h last (by simp)
    unfold pushMergedInterval
    rw [if_neg (by omega)]
    rfl
  | x :: y :: xs =>
    have ih := pushMergedInterval_of_gap (y :: xs) n
      (by intro last hlast; exact h last (by rwa [List.getLast?_cons_cons]))
    simp [pushMergedInterval, ih]

theorem ichainIn_nil {lo hi : Int} : IChainIn lo hi [] :=
  ⟨⟨by simp, List.chain'_nil⟩, by simp⟩

theorem ichainIn_push {lo hi : Int} {l : List Interval} {n : Interval}
    (hl : IChainIn lo hi l) (h1 : lo ≤ n.start) (h2 : n.start < n.stop)
    (h3 : n.stop ≤ hi) : IChainIn lo hi (pushMergedInterval l n) := by
  match l with
  | [] =>
    refine ⟨⟨?_, ?_⟩, ?_⟩ <;> simp [pushMergedInterval] <;> omega
  | [last] =>
    obtain ⟨⟨hval, _⟩, hbnd⟩ := hl
    have hv := hval last (by simp)
    have hb := hbnd last (by simp)
    unfold pushMergedInterval
    by_cases hm : n.start ≤ last.stop
    · rw [if_pos hm]
      refine ⟨⟨?_, ?_⟩, ?_⟩ <;> simp <;> omega
    · rw [if_neg hm]
      refine ⟨⟨?_, ?_⟩, ?_⟩ <;> simp <;> omega
  | x :: y :: xs =>
    obtain ⟨⟨hval, hch⟩, hbnd⟩ := hl
    rw [List.chain'_cons] at hch
    have htail : IChainIn lo hi (y :: xs) :=
      ⟨⟨fun it hit => hval it (List.mem_cons_of_mem _ hit), hch.2⟩,
        fun it hit => hbnd it (List.mem_cons_of_mem _ hit)⟩
    have ih := ichainIn_push htail h1 h2 h3
    obtain ⟨⟨hval', hch'⟩, hbnd'⟩ := ih
    rw [pushMergedInterval]
    refine ⟨⟨?_, ?_⟩, ?_⟩
    · intro it hit
      rcases List.mem_cons.mp hit with rfl | hmem
      · exact hval it (by simp)
      · exact hval' it hmem
    · rw [List.chain'_cons']
      refine ⟨?_, hch'⟩
      intro z hz
      have hh := pushMergedInterval_head_start (y :: xs) n (by simp)
      rw [Option.mem_def] at hz
      rw [hz] at hh
      simp only [List.head?_cons, Option.map_some'] at hh
      have hzs : z.start = y.start := by
        exact Option.some.inj hh
      rw [hzs]
      exact hch.1
    · intro it hit
      rcases List.mem_cons.mp hit with rfl | hmem
      · exact hbnd it (by simp)
      · exact hbnd' it hmem

theorem covers_push {l : List Interval} {n : Interval}
    (h : ∀ last ∈ l.getLast?, last.start ≤ n.start) (t : Int) :
    Covers (pushMergedInterval l n) t ↔
      Covers l t ∨ (n.start ≤ t ∧ t < n.stop) := by
  match l with
  | [] =>
    simp only [pushMergedInterval, covers_cons, covers_nil t]
    tauto
  | [last] =>
    have hls : last.start ≤ n.start := h last (by simp)
    unfold pushMergedInterval
    by_cases hm : n.start ≤ last.stop
    · rw [if_pos hm]
      simp only [covers_cons, covers_nil t, or_false]
      omega
    · rw [if_neg hm]
      simp only [covers_cons, covers_nil t, or_false]
  | x :: y :: xs =>
    have ih := covers_push (l := y :: xs) (n := n)
      (by intro last hlast; exact h last (by rwa [List.getLast?_cons_cons])) t
    rw [pushMergedInterval, covers_cons, ih]
    simp only [covers_cons]
    tauto

instance : IsTotal Interval startLe :=
  ⟨fun a b => le_total a.start b.start⟩

instance : IsTrans Interval startLe :=
  ⟨fun _ _ _ hab hbc => le_trans hab hbc⟩

theorem ichainIn_foldl_push {lo hi : Int} :
    ∀ (rest acc : List Interval), IChainIn lo hi acc →
      (∀ it ∈ rest, lo ≤ it.start ∧ it.start < it.stop ∧ it.stop ≤ hi) →
      IChainIn lo hi (rest.foldl pushMergedInterval acc)
  | [], acc, hacc, _ => hacc
  | r :: rest, acc, hacc, hrest => by
    rw [List.foldl_cons]
    have hr := hrest r (by simp)
    exact ichainIn_foldl_push rest (pushMergedInterval acc r)
      (ichainIn_push hacc hr.1 hr.2.1 hr.2.2)
      (fun it hit => hrest it (List.mem_cons_of_mem _ hit))

theorem sortByStart_mem {l : List Interval} {it : Interval} :
    it ∈ sortByStart l ↔ it ∈ l :=
  List.Perm.mem_iff (List.perm_insertionSort _ l)

/-- Any `mergeIntervals` output over intervals that are valid and fit
inside `[lo, hi)` is an ordered, strictly separated interval list inside
`[lo, hi)`. -/
theorem mergeIntervals_ichainIn {lo hi : Int} {l : List Interval}
    (h : ∀ it ∈ l, lo ≤ it.start ∧ it.start < it.stop ∧ it.stop ≤ hi) :
    IChainIn lo hi (mergeIntervals l) := by
  unfold mergeIntervals
  cases hs : sortByStart l with
  | nil => exact ichainIn_nil
  | cons first rest =>
    have hmem : ∀ it ∈ first :: rest, lo ≤ it.start ∧ it.start < it.stop ∧ it.stop ≤ hi := by
      intro it hit
      exact h it (sortByStart_mem.mp (hs ▸ hit))
    have hfirst := hmem first (by simp)
    refine ichainIn_foldl_push rest [⟨first.start, first.stop⟩] ?_ ?_
    · refine ⟨⟨?_, ?_⟩, ?_⟩ <;> simp <;> omega
    · intro it hit
      exact hmem it (List.mem_cons_of_mem _ hit)

/-- An interval chain is pairwise strictly separated. -/
theorem ichain_pairwise {l : List Interval} (h : IChain l) :
    l.Pairwise fun a b => a.stop < b.start := by
  obtain ⟨hval, hch⟩ := h
  induction l with
  | nil => exact List.Pairwise.nil
  | cons x xs ih =>
    rw [List.chain'_cons'] at hch
    have hxs : List.Pairwise (fun a b => a.stop < b.start) xs :=
      ih (fun it hit => hval it (List.mem_cons_of_mem _ hit)) hch.2
    refine List.Pairwise.cons ?_ hxs
    intro y hy
    cases xs with
    | nil => simp at hy
    | cons z zs =>
      have hxz : x.stop < z.start := hch.1 z (by simp)
      rcases List.mem_cons.mp hy with rfl | hmem
      · exact hxz
      · have hzy : z.stop < y.start := List.rel_of_pairwise_cons hxs hmem
        have hz := hval z (by simp)
        omega

/-! ## The counting-measure semantics of the interval arithmetic -/

theorem pointSet_nil : pointSet [] = (∅ : Finset ℤ) := rfl

theorem pointSet_cons (x : Interval) (xs : List Interval) :
    pointSet (x :: xs) = Finset.Ico x.start x.stop ∪ pointSet xs := rfl

theorem mem_pointSet {l : List Interval} {t : ℤ} :
    t ∈ pointSet l ↔ Covers l t := by
  induction l with
  | nil => simp [pointSet_nil, Covers]
  | cons x xs ih =>
    rw [pointSet_cons, Finset.mem_union, Finset.mem_Ico, ih, covers_cons]

theorem ichain_tail {x : Interval} {xs : List Interval} (h : IChain (x :: xs)) :
    IChain xs :=
  ⟨fun it hit => h.1 it (List.mem_cons_of_mem _ hit), (List.chain'_cons'.mp h.2).2⟩

theorem ichain_head_sep {x : Interval} {xs : List Interval} (h : IChain (x :: xs)) :
    ∀ y ∈ xs, x.stop < y.start :=
  fun y hy => List.rel_of_pairwise_cons (ichain_pairwise h) hy

theorem card_Ico_int (a b : Int) :
    (((Finset.Ico a b).card : ℕ) : ℤ) = max 0 (b - a) := by
  rw [Int.card_Ico, Int.ofNat_toNat]
  omega

theorem foldl_sum_shift (l : List Interval) (acc : Int) :
    l.foldl (fun a it => a + max 0 (it.stop - it.start)) acc =
      acc + l.foldl (fun a it => a + max 0 (it.stop - it.start)) 0 := by
  induction l generalizing acc with
  | nil => simp
  | cons x xs ih =>
    rw [List.foldl_cons, List.foldl_cons, ih, ih (0 + max 0 (x.stop - x.start))]
    ring

theorem sumIntervals_cons (x : Interval) (xs : List Interval) :
    sumIntervals (x :: xs) = max 0 (x.stop - x.start) + sumIntervals xs := by
  unfold sumIntervals
  rw [List.foldl_cons, foldl_sum_shift]
  ring

/-- On a strictly separated interval list, `sumIntervals` is the number
of covered integer points. -/
theorem sumIntervals_eq_card {l : List Interval} (h : IChain l) :
    sumIntervals l = ((pointSet l).card : ℤ) := by
  induction l with
  | nil => simp [sumIntervals, pointSet_nil]
  | cons x xs ih =>
    have hdisj : Disjoint (Finset.Ico x.start x.stop) (pointSet xs) := by
      rw [Finset.disjoint_left]
      intro t ht hmem
      rw [Finset.mem_Ico] at ht
      obtain ⟨z, hz, hzs, _⟩ := mem_pointSet.mp hmem
      have := ichain_head_sep h z hz
      omega
    rw [sumIntervals_cons, ih (ichain_tail h), pointSet_cons,
      Finset.card_union_of_disjoint hdisj]
    push_cast
    rw [card_Ico_int]

theorem pointSet_subset {lo hi : Int} {l : List Interval}
    (h : ∀ it ∈ l, lo ≤ it.start ∧ it.stop ≤ hi) :
    pointSet l ⊆ Finset.Ico lo hi := by
  intro t ht
  obtain ⟨it, hit, h1, h2⟩ := mem_pointSet.mp ht
  have := h it hit
  rw [Finset.mem_Ico]
  omega

/-- The two-pointer sweep `overlapSeconds` counts exactly the integer
points covered by both strictly separated lists. -/
theorem overlapSeconds_eq_card (a b : List Interval) :
    IChain a → IChain b →
      overlapSeconds a b = (((pointSet a ∩ pointSet b).card : ℕ) : ℤ) := by
  induction a, b using overlapSeconds.induct with
  | case1 b =>
    intro _ _
    simp [overlapSeconds, pointSet_nil]
  | case2 x xs =>
    intro _ _
    simp [overlapSeconds, pointSet_nil]
  | case3 x xs y ys ih1 ih2 =>
    intro ha hb
    have hx := ha.1 x (by simp)
    have hy := hb.1 y (by simp)
    by_cases hcond : x.stop ≤ y.stop
    · have hIcoPys : Finset.Ico x.start x.stop ∩ pointSet ys = ∅ := by
        rw [Finset.eq_empty_iff_forall_not_mem]
        intro t ht
        rw [Finset.mem_inter, Finset.mem_Ico] at ht
        obtain ⟨⟨_, ht2⟩, hmem⟩ := ht
        obtain ⟨z, hz, hzs, _⟩ := mem_pointSet.mp hmem
        have := ichain_head_sep hb z hz
        omega
      have hIcoPxs : Disjoint (Finset.Ico x.start x.stop) (pointSet xs) := by
        rw [Finset.disjoint_left]
        intro t ht hmem
        rw [Finset.mem_Ico] at ht
        obtain ⟨z, hz, hzs, _⟩ := mem_pointSet.mp hmem
        have := ichain_head_sep ha z hz
        omega
      have hsplit : pointSet (x :: xs) ∩ pointSet (y :: ys) =
          Finset.Ico (max x.start y.start) (min x.stop y.stop) ∪
            (pointSet xs ∩ pointSet (y :: ys)) := by
        rw [pointSet_cons x xs, Finset.union_inter_distrib_right]
        congr 1
        rw [pointSet_cons y ys, Finset.inter_union_distrib_left, hIcoPys,
          Finset.union_empty, Finset.Ico_inter_Ico]
      have hdisj2 : Disjoint
          (Finset.Ico (max x.start y.start) (min x.stop y.stop))
          (pointSet xs ∩ pointSet (y :: ys)) := by
        rw [Finset.disjoint_left]
        intro t ht hmem
        rw [Finset.mem_Ico] at ht
        refine Finset.disjoint_left.mp hIcoPxs ?_ (Finset.mem_inter.mp hmem).1
        rw [Finset.mem_Ico]
        omega
      rw [overlapSeconds]
      simp only [if_pos hcond]
      rw [ih1 (ichain_tail ha) hb, hsplit, Finset.card_union_of_disjoint hdisj2]
      push_cast
      rw [card_Ico_int]
      omega
    · have hPxsIcoY : pointSet xs ∩ Finset.Ico y.start y.stop = ∅ := by
        rw [Finset.eq_empty_iff_forall_not_mem]
        intro t ht
        rw [Finset.mem_inter, Finset.mem_Ico] at ht
        obtain ⟨hmem, _, ht2⟩ := ht
        obtain ⟨z, hz, hzs, _⟩ := mem_pointSet.mp hmem
        have := ichain_head_sep ha z hz
        omega
      have hIcoPys : Disjoint (Finset.Ico y.start y.stop) (pointSet ys) := by
        rw [Finset.disjoint_left]
        intro t ht hmem
        rw [Finset.mem_Ico] at ht
        obtain ⟨z, hz, hzs, _⟩ := mem_pointSet.mp hmem
        have := ichain_head_sep hb z hz
        omega
      have hsplit : pointSet (x :: xs) ∩ pointSet (y :: ys) =
          Finset.Ico (max x.start y.start) (min x.stop y.stop) ∪
            (pointSet (x :: xs) ∩ pointSet ys) := by
        conv_lhs => rw [pointSet_cons y ys]
        rw [Finset.inter_union_distrib_left]
        congr 1
        rw [pointSet_cons x xs, Finset.union_inter_distrib_right, hPxsIcoY,
          Finset.union_empty, Finset.Ico_inter_Ico]
      have hdisj2 : Disjoint
          (Finset.Ico (max x.start y.start) (min x.stop y.stop))
          (pointSet (x :: xs) ∩ pointSet ys) := by
        rw [Finset.disjoint_left]
        intro t ht hmem
        rw [Finset.mem_Ico] at ht
        refine Finset.disjoint_left.mp hIcoPys ?_ (Finset.mem_inter.mp hmem).2
        rw [Finset.mem_Ico]
        omega
      rw [overlapSeconds]
      simp only [if_neg hcond]
      rw [ih2 ha (ichain_tail hb), hsplit, Finset.card_union_of_disjoint hdisj2]
      push_cast
      rw [card_Ico_int]
      omega

/-! ## Structural invariants of `buildUnknownIntervals` -/

theorem addUnknown_ichainIn {lo hi a b : Int} {u : List Interval}
    (hu : IChainIn lo hi u) (ha : lo ≤ a) (hb : b ≤ hi) :
    IChainIn lo hi (addUnknown u a b) := by
  unfold addUnknown ensureInterval
  by_cases hab : b ≤ a
  · simp only [if_pos hab]
    exact hu
  · simp only [if_neg hab]
    exact ichainIn_push hu ha (show a < b by omega) hb

theorem processSegment_ichainIn {lo hi s e : Int} {lc : Option CheckRow}
    {intervalSec : Int} {u : List Interval}
    (hu : IChainIn lo hi u) (hs : lo ≤ s) (he : e ≤ hi) :
    IChainIn lo hi (processSegment lc intervalSec u s e) := by
  unfold processSegment
  by_cases h1 : e ≤ s
  · simp only [if_pos h1]
    exact hu
  · simp only [if_neg h1]
    match lc with
    | none => exact addUnknown_ichainIn hu hs he
    | some c =>
      by_cases h2 : c.checked_at + intervalSec * 2 ≤ s
      · simp only [if_pos h2]
        exact addUnknown_ichainIn hu hs he
      · simp only [if_neg h2]
        have hcov : s < min e (c.checked_at + intervalSec * 2) := by omega
        by_cases h3 : c.status = ("unknown" : String)
        · simp only [if_pos h3]
          by_cases h4 : min e (c.checked_at + intervalSec * 2) < e
          · simp only [if_pos h4]
            exact addUnknown_ichainIn
              (addUnknown_ichainIn hu hs (by omega)) (by omega) he
          · simp only [if_neg h4]
            exact addUnknown_ichainIn hu hs (by omega)
        · simp only [if_neg h3]
          by_cases h4 : min e (c.checked_at + intervalSec * 2) < e
          · simp only [if_pos h4]
            exact addUnknown_ichainIn hu (by omega) he
          · simp only [if_neg h4]
            exact hu

theorem unkStep_invariant {rangeStart rangeEnd intervalSec : Int}
    (hlt : rangeStart < rangeEnd) :
    ∀ (cs : List CheckRow) (st : UnkState),
      rangeStart ≤ st.cursor → st.cursor ≤ rangeEnd →
      IChainIn rangeStart rangeEnd st.unknown →
      rangeStart ≤ (cs.foldl (unkStep rangeStart rangeEnd intervalSec) st).cursor ∧
        (cs.foldl (unkStep rangeStart rangeEnd intervalSec) st).cursor ≤ rangeEnd ∧
        IChainIn rangeStart rangeEnd
          (cs.foldl (unkStep rangeStart rangeEnd intervalSec) st).unknown
  | [], st, h1, h2, h3 => ⟨h1, h2, h3⟩
  | c :: cs, st, h1, h2, h3 => by
    rw [List.foldl_cons]
    have hnext : rangeStart ≤ (unkStep rangeStart rangeEnd intervalSec st c).cursor ∧
        (unkStep rangeStart rangeEnd intervalSec st c).cursor ≤ rangeEnd ∧
        IChainIn rangeStart rangeEnd
          (unkStep rangeStart rangeEnd intervalSec st c).unknown := by
      unfold unkStep
      by_cases hb : st.broke
      · simp only [if_pos hb]
        exact ⟨h1, h2, h3⟩
      · rw [if_neg hb]
        by_cases hc1 : c.checked_at < rangeStart
        · simp only [if_pos hc1]
          exact ⟨h1, h2, h3⟩
        · rw [if_neg hc1]
          by_cases hc2 : rangeEnd ≤ c.checked_at
          · simp only [if_pos hc2]
            exact ⟨h1, h2, h3⟩
          · simp only [if_neg hc2]
            refine ⟨show rangeStart ≤ c.checked_at by omega,
              show c.checked_at ≤ rangeEnd by omega, ?_⟩
            exact processSegment_ichainIn h3 h1 (show c.checked_at ≤ rangeEnd by omega)
    exact unkStep_invariant hlt cs _ hnext.1 hnext.2.1 hnext.2.2

/-- The unknown intervals computed by `buildUnknownIntervals` always form
an ordered, strictly separated interval list inside the query window. -/
theorem buildUnknownIntervals_ichainIn (rangeStart rangeEnd intervalSec : Int)
    (checks : List CheckRow) :
    IChainIn rangeStart rangeEnd
      (buildUnknownIntervals rangeStart rangeEnd intervalSec checks) := by
  unfold buildUnknownIntervals
  by_cases h1 : rangeEnd ≤ rangeStart
  · simp only [if_pos h1]
    exact ichainIn_nil
  · rw [if_neg h1]
    by_cases h2 : intervalSec ≤ 0
    · rw [if_pos h2]
      refine ⟨⟨?_, ?_⟩, ?_⟩ <;> simp <;> omega
    · rw [if_neg h2]
      have hinv := @unkStep_invariant rangeStart rangeEnd intervalSec (by omega) checks
        ⟨none, rangeStart, [], false⟩ (le_refl _)
        (show rangeStart ≤ rangeEnd by omega) ichainIn_nil
      exact processSegment_ichainIn hinv.2.2 hinv.1 (le_refl _)

theorem downtimeIntervals_ichainIn (lo hi : Int) (outages : List OutageRow) :
    IChainIn lo hi (downtimeIntervals lo hi outages) := by
  unfold downtimeIntervals
  apply mergeIntervals_ichainIn
  intro it hit
  rw [List.mem_filter] at hit
  obtain ⟨hmem, hlt⟩ := hit
  rw [List.mem_map] at hmem
  obtain ⟨r, _, rfl⟩ := hmem
  simp only [decide_eq_true_eq] at hlt
  refine ⟨?_, ?_, ?_⟩ <;> simp only at hlt ⊢ <;> omega

/-- C2: the window partition identity of the uptime computation.  For
every window, every outage list and every check list,
`downtime_sec + unknown_sec + uptime_sec = total_sec` where
`total_sec = max 0 (range_end - range_start)`: the downtime intervals are
clipped to the window and merged, the unknown seconds exclude the overlap
with downtime, and `uptime_sec` is `total_sec` minus the capped
unavailable time. -/
theorem uptime_window_partition (rangeStart rangeEnd intervalSec : Int)
    (outages : List OutageRow) (checks : List CheckRow) :
    (uptimeTotals rangeStart rangeEnd intervalSec outages checks).downtime_sec +
        (uptimeTotals rangeStart rangeEnd intervalSec outages checks).unknown_sec +
        (uptimeTotals rangeStart rangeEnd intervalSec outages checks).uptime_sec =
      (uptimeTotals rangeStart rangeEnd intervalSec outages checks).total_sec ∧
    (uptimeTotals rangeStart rangeEnd intervalSec outages checks).total_sec =
      max 0 (rangeEnd - rangeStart) := by
  have hdc := downtimeIntervals_ichainIn rangeStart rangeEnd outages
  have huc := buildUnknownIntervals_ichainIn rangeStart rangeEnd intervalSec checks
  set down := downtimeIntervals rangeStart rangeEnd outages with hdown
  set unk := buildUnknownIntervals rangeStart rangeEnd intervalSec checks with hunk
  have hD := sumIntervals_eq_card hdc.1
  have hU := sumIntervals_eq_card huc.1
  have hO := overlapSeconds_eq_card unk down huc.1 hdc.1
  have hsub : pointSet unk ∪ pointSet down ⊆ Finset.Ico rangeStart rangeEnd :=
    Finset.union_subset (pointSet_subset huc.2) (pointSet_subset hdc.2)
  have hcardle : (pointSet unk ∪ pointSet down).card ≤
      (Finset.Ico rangeStart rangeEnd).card := Finset.card_le_card hsub
  have hui : (pointSet unk ∪ pointSet down).card +
        (pointSet unk ∩ pointSet down).card =
      (pointSet unk).card + (pointSet down).card :=
    Finset.card_union_add_card_inter _ _
  have hab : (pointSet unk ∩ pointSet down).card ≤ (pointSet unk).card :=
    Finset.card_le_card Finset.inter_subset_left
  have hIco := card_Ico_int rangeStart rangeEnd
  simp only [uptimeTotals]
  rw [hD, hU, hO]
  refine ⟨?_, trivial⟩
  omega

/-! ## Full correctness of `mergeIntervals` -/

theorem ichain_push {l : List Interval} {n : Interval}
    (hl : IChain l) (h2 : n.start < n.stop) : IChain (pushMergedInterval l n) := by
  match l with
  | [] =>
    refine ⟨?_, ?_⟩ <;> simp [pushMergedInterval] <;> omega
  | [last] =>
    obtain ⟨hval, _⟩ := hl
    have hv := hval last (by simp)
    unfold pushMergedInterval
    by_cases hm : n.start ≤ last.stop
    · rw [if_pos hm]
      refine ⟨?_, ?_⟩ <;> simp <;> omega
    · rw [if_neg hm]
      refine ⟨?_, ?_⟩ <;> simp <;> omega
  | x :: y :: xs =>
    obtain ⟨hval, hch⟩ := hl
    rw [List.chain'_cons] at hch
    have htail : IChain (y :: xs) :=
      ⟨fun it hit => hval it (List.mem_cons_of_mem _ hit), hch.2⟩
    have ih := ichain_push htail h2
    obtain ⟨hval', hch'⟩ := ih
    rw [pushMergedInterval]
    refine ⟨?_, ?_⟩
    · intro it hit
      rcases List.mem_cons.mp hit with rfl | hmem
      · exact hval it (by simp)
      · exact hval' it hmem
    · rw [List.chain'_cons']
      refine ⟨?_, hch'⟩
      intro z hz
      have hh := pushMergedInterval_head_start (y :: xs) n (by simp)
      rw [Option.mem_def] at hz
      rw [hz] at hh
      simp only [List.head?_cons, Option.map_some'] at hh
      rw [Option.some.inj hh]
      exact hch.1

theorem ichain_foldl_push :
    ∀ (rest acc : List Interval), IChain acc →
      (∀ it ∈ rest, it.start < it.stop) →
      IChain (rest.foldl pushMergedInterval acc)
  | [], _, hacc, _ => hacc
  | r :: rest, acc, hacc, hrest => by
    rw [List.foldl_cons]
    exact ichain_foldl_push rest (pushMergedInterval acc r)
      (ichain_push hacc (hrest r (by simp)))
      (fun it hit => hrest it (List.mem_cons_of_mem _ hit))

theorem mergeIntervals_ichain {l : List Interval}
    (h : ∀ it ∈ l, it.start < it.stop) : IChain (mergeIntervals l) := by
  unfold mergeIntervals
  cases hs : sortByStart l with
  | nil => exact ⟨by simp, List.chain'_nil⟩
  | cons first rest =>
    have hmem : ∀ it ∈ first :: rest, it.start < it.stop := by
      intro it hit
      exact h it (sortByStart_mem.mp (hs ▸ hit))
    have hfirst := hmem first (by simp)
    refine ichain_foldl_push rest [⟨first.start, first.stop⟩] ?_ ?_
    · exact ⟨by simpa using hfirst, by simp⟩
    · intro it hit
      exact hmem it (List.mem_cons_of_mem _ hit)

theorem covers_of_perm {l l' : List Interval} (h : l.Perm l') (t : Int) :
    Covers l t ↔ Covers l' t := by
  unfold Covers
  constructor <;> rintro ⟨it, hit, hh⟩
  · exact ⟨it, h.subset hit, hh⟩
  · exact ⟨it, h.symm.subset hit, hh⟩

theorem covers_foldl_push :
    ∀ (rest acc : List Interval) (t : Int),
      (∀ last ∈ acc.getLast?, ∀ r ∈ rest, last.start ≤ r.start) →
      rest.Sorted startLe →
      (Covers (rest.foldl pushMergedInterval acc) t ↔
        Covers acc t ∨ Covers rest t)
  | [], acc, t, _, _ => by
    simp [covers_nil t]
  | r :: rest, acc, t, hlast, hsort => by
    rw [List.foldl_cons]
    have hpush := covers_push (l := acc) (n := r)
      (fun last hl => hlast last hl r (by simp)) t
    have hlast' : ∀ last ∈ (pushMergedInterval acc r).getLast?,
        ∀ r' ∈ rest, last.start ≤ r'.start := by
      intro last hl r' hr'
      obtain ⟨last', heq, hcase⟩ := pushMergedInterval_getLast_start acc r
      rw [Option.mem_def, heq] at hl
      cases Option.some.inj hl
      rcases hcase with hc | hc
      · obtain ⟨last0, hl0, hst⟩ := Option.map_eq_some'.mp hc
        rw [← hst]
        exact hlast last0 hl0 r' (List.mem_cons_of_mem _ hr')
      · rw [hc]
        exact List.rel_of_sorted_cons hsort r' hr'
    have ih := covers_foldl_push rest (pushMergedInterval acc r) t hlast'
      (List.sorted_cons.mp hsort).2
    rw [ih, hpush, covers_cons]
    tauto

theorem mergeIntervals_covers (l : List Interval) (t : Int) :
    Covers (mergeIntervals l) t ↔ Covers l t := by
  unfold mergeIntervals
  have hperm : (sortByStart l).Perm l := List.perm_insertionSort _ l
  have hsorted : (sortByStart l).Sorted startLe := List.sorted_insertionSort _ l
  cases hs : sortByStart l with
  | nil =>
    rw [hs] at hperm
    rw [hperm.symm.eq_nil]
  | cons first rest =>
    rw [hs] at hperm hsorted
    have h1 : ∀ last ∈ ([(⟨first.start, first.stop⟩ : Interval)]).getLast?,
        ∀ r ∈ rest, last.start ≤ r.start := by
      intro last hl r hr
      rw [Option.mem_def] at hl
      simp only [List.getLast?_singleton] at hl
      cases Option.some.inj hl
      exact List.rel_of_sorted_cons hsorted r hr
    rw [covers_foldl_push rest [⟨first.start, first.stop⟩] t h1
      (List.sorted_cons.mp hsorted).2]
    rw [← covers_of_perm hperm t, covers_cons, covers_cons]
    simp [covers_nil t]

theorem foldl_push_of_ichain :
    ∀ (rest acc : List Interval), IChain (acc ++ rest) →
      rest.foldl pushMergedInterval acc = acc ++ rest
  | [], acc, _ => by simp
  | r :: rest, acc, h => by
    rw [List.foldl_cons]
    have hgap : ∀ last ∈ acc.getLast?, last.stop < r.start := by
      intro last hl
      have hch := h.2
      rw [List.chain'_append] at hch
      exact hch.2.2 last hl r (by simp)
    rw [pushMergedInterval_of_gap acc r hgap]
    have ih := foldl_push_of_ichain rest (acc ++ [r])
      (by rwa [List.append_assoc, List.singleton_append])
    rw [ih, List.append_assoc, List.singleton_append]

theorem sorted_of_ichain {l : List Interval} (h : IChain l) :
    l.Sorted startLe := by
  refine List.Pairwise.imp_of_mem ?_ (ichain_pairwise h)
  intro a b ha _ hr
  have := h.1 a ha
  unfold startLe
  omega

theorem mergeIntervals_idem_of_ichain {l : List Interval} (h : IChain l) :
    mergeIntervals l = l := by
  unfold mergeIntervals sortByStart
  rw [List.Sorted.insertionSort_eq (sorted_of_ichain h)]
  cases l with
  | nil => rfl
  | cons first rest =>
    exact foldl_push_of_ichain rest [first] h

/-- C10: for every list of intervals with `start < end`, `mergeIntervals`
returns intervals that are nonempty, sorted by strictly ascending start
and pairwise disjoint (each ends strictly before the next begins), cover
exactly the union of the inputs, and the function is idempotent on its own
output. -/
theorem mergeIntervals_correct (l : List Interval)
    (h : ∀ it ∈ l, it.start < it.stop) :
    (∀ it ∈ mergeIntervals l, it.start < it.stop) ∧
    List.Pairwise (fun a b => a.start < b.start ∧ a.stop < b.start)
      (mergeIntervals l) ∧
    (∀ t : Int, Covers (mergeIntervals l) t ↔ Covers l t) ∧
    mergeIntervals (mergeIntervals l) = mergeIntervals l := by
  have hic : IChain (mergeIntervals l) := mergeIntervals_ichain h
  refine ⟨hic.1, ?_, fun t => mergeIntervals_covers l t,
    mergeIntervals_idem_of_ichain hic⟩
  refine List.Pairwise.imp_of_mem ?_ (ichain_pairwise hic)
  intro a b ha _ hr
  have := hic.1 a ha
  exact ⟨by omega, hr⟩

/-- Witness for C10 at a concrete input: idempotence on the merge of two
overlapping intervals. -/
theorem mergeIntervals_correct_witness :
    mergeIntervals (mergeIntervals [⟨0, 5⟩, ⟨3, 7⟩]) =
      mergeIntervals [⟨0, 5⟩, ⟨3, 7⟩] :=
  (mergeIntervals_correct [⟨0, 5⟩, ⟨3, 7⟩] (by decide)).2.2.2

/-! ## Pointwise characterization of `buildUnknownIntervals` -/

/-- The most recent probe at or before `t`: the last entry of `checks`
with `checked_at ≤ t`, falling back to the carried-over probe `lc` (the
`lastCheck` that the walk keeps from earlier, possibly pre-window,
results). -/
def lastProbe2 (lc : Option CheckRow) (checks : List CheckRow) (t : Int) :
    Option CheckRow :=
  match (checks.filter fun c => decide (c.checked_at ≤ t)).getLast? with
  | some c => some c
  | none => lc

/-- A covering probe leaves `t` unknown iff `t` lies beyond its validity
window `[checked_at, checked_at + 2 * interval_sec)` or its status is the
literal `unknown`; no probe at all means unknown. -/
def statusSpec (lc : Option CheckRow) (intervalSec t : Int) : Prop :=
  ∀ c ∈ lc, c.checked_at + intervalSec * 2 ≤ t ∨ c.status = ("unknown" : String)

/-- The amended pointwise specification of the unknown-interval walk:
`t` is unknown iff the most recent probe at or before `t` (if any) either
no longer covers `t` or reported status `unknown`; with no such probe the
point is unknown. -/
def unknownAtSpec (intervalSec : Int) (checks : List CheckRow) (t : Int) : Prop :=
  statusSpec (lastProbe2 none checks t) intervalSec t

theorem lastProbe2_nil (lc : Option CheckRow) (t : Int) :
    lastProbe2 lc [] t = lc := rfl

theorem lastProbe2_cons_le {c : CheckRow} {cs : List CheckRow} {t : Int}
    (lc : Option CheckRow) (h : c.checked_at ≤ t) :
    lastProbe2 lc (c :: cs) t = lastProbe2 (some c) cs t := by
  unfold lastProbe2
  rw [List.filter_cons, if_pos (by simpa using h)]
  cases hf : (cs.filter fun x => decide (x.checked_at ≤ t)) with
  | nil => simp
  | cons d ds =>
    rw [List.getLast?_cons_cons, List.getLast?_eq_getLast (d :: ds) (by simp)]

theorem lastProbe2_cons_gt {c : CheckRow} {cs : List CheckRow} {t : Int}
    (lc : Option CheckRow) (h : ¬ c.checked_at ≤ t)
    (hcs : ∀ d ∈ cs, c.checked_at ≤ d.checked_at) :
    lastProbe2 lc (c :: cs) t = lc := by
  unfold lastProbe2
  have h1 : (c :: cs).filter (fun x => decide (x.checked_at ≤ t)) = [] := by
    rw [List.filter_eq_nil_iff]
    intro d hd
    rcases List.mem_cons.mp hd with rfl | hmem
    · simpa using h
    · have := hcs d hmem
      simp only [decide_eq_true_eq]
      omega
  rw [h1]
  rfl

theorem ichainIn_mono {lo hi lo' hi' : Int} {l : List Interval}
    (h : IChainIn lo hi l) (h1 : lo' ≤ lo) (h2 : hi ≤ hi') :
    IChainIn lo' hi' l := by
  refine ⟨h.1, fun it hit => ?_⟩
  have := h.2 it hit
  omega

theorem ichainIn_getLast_start_le {lo hi : Int} {l : List Interval}
    (h : IChainIn lo hi l) : ∀ last ∈ l.getLast?, last.start ≤ hi := by
  intro last hl
  have hmem := List.mem_of_mem_getLast? hl
  have h1 := h.1.1 last hmem
  have h2 := h.2 last hmem
  omega

theorem covers_addUnknown {u : List Interval} {a b : Int}
    (h : ∀ last ∈ u.getLast?, last.start ≤ a) (t : Int) :
    Covers (addUnknown u a b) t ↔ Covers u t ∨ (a ≤ t ∧ t < b) := by
  unfold addUnknown ensureInterval
  by_cases hab : b ≤ a
  · simp only [if_pos hab]
    constructor
    · exact Or.inl
    · rintro (hc | hc)
      · exact hc
      · omega
  · simp only [if_neg hab]
    exact covers_push h t

theorem addUnknown_getLast_start_le {u : List Interval} {a b bound : Int}
    (h : ∀ last ∈ u.getLast?, last.start ≤ bound) (ha : a ≤ bound) :
    ∀ last ∈ (addUnknown u a b).getLast?, last.start ≤ bound := by
  unfold addUnknown ensureInterval
  by_cases hab : b ≤ a
  · simp only [if_pos hab]
    exact h
  · simp only [if_neg hab]
    intro last hl
    obtain ⟨last', heq, hcase⟩ := pushMergedInterval_getLast_start u ⟨a, b⟩
    rw [Option.mem_def, heq] at hl
    have hinj : last'.start = last.start := by
      rw [Option.some.inj hl]
    rcases hcase with hc | hc
    · obtain ⟨last0, hl0, hst⟩ := Option.map_eq_some'.mp hc
      have h0 := h last0 hl0
      omega
    · have hca : last'.start = a := hc
      omega

/-- Coverage semantics of `processSegment`: it adds to `unknown` exactly
the points of `[segStart, segEnd)` that the carried-over probe leaves
unknown. -/
theorem covers_processSegment {lc : Option CheckRow}
    {intervalSec : Int} {u : List Interval} {s e : Int}
    (hlast : ∀ last ∈ u.getLast?, last.start ≤ s) (t : Int) :
    Covers (processSegment lc intervalSec u s e) t ↔
      Covers u t ∨ (s ≤ t ∧ t < e ∧ statusSpec lc intervalSec t) := by
  unfold processSegment
  by_cases h1 : e ≤ s
  · simp only [if_pos h1]
    constructor
    · exact Or.inl
    · rintro (hc | hc)
      · exact hc
      · omega
  · simp only [if_neg h1]
    match lc with
    | none =>
      rw [covers_addUnknown hlast t]
      unfold statusSpec
      simp only [Option.mem_def, reduceCtorEq, false_implies, implies_true, and_true]
    | some c =>
      have hspec : ∀ t', statusSpec (some c) intervalSec t' ↔
          (c.checked_at + intervalSec * 2 ≤ t' ∨ c.status = ("unknown" : String)) := by
        intro t'
        unfold statusSpec
        simp [Option.mem_def]
      by_cases h2 : c.checked_at + intervalSec * 2 ≤ s
      · simp only [if_pos h2]
        rw [covers_addUnknown hlast t, hspec t]
        constructor
        · rintro (hc | hc)
          · exact Or.inl hc
          · exact Or.inr ⟨hc.1, hc.2, Or.inl (by omega)⟩
        · rintro (hc | ⟨ha, hb, _⟩)
          · exact Or.inl hc
          · exact Or.inr ⟨ha, hb⟩
      · simp only [if_neg h2]
        by_cases h3 : c.status = ("unknown" : String)
        · simp only [if_pos h3]
          have hlast2 : ∀ last ∈ u.getLast?,
              last.start ≤ min e (c.checked_at + intervalSec * 2) := by
            intro last hl
            have := hlast last hl
            omega
          have hu1last := addUnknown_getLast_start_le (a := s) (b := min e
            (c.checked_at + intervalSec * 2)) hlast2 (by omega)
          by_cases h4 : min e (c.checked_at + intervalSec * 2) < e
          · simp only [if_pos h4]
            rw [covers_addUnknown hu1last t, covers_addUnknown hlast t, hspec t]
            constructor
            · rintro ((hc | hc) | hc)
              · exact Or.inl hc
              · exact Or.inr ⟨by omega, by omega, Or.inr h3⟩
              · exact Or.inr ⟨by omega, by omega, Or.inr h3⟩
            · rintro (hc | ⟨ha, hb, _⟩)
              · exact Or.inl (Or.inl hc)
              · by_cases h5 : t < min e (c.checked_at + intervalSec * 2)
                · exact Or.inl (Or.inr ⟨ha, h5⟩)
                · exact Or.inr ⟨by omega, hb⟩
          · simp only [if_neg h4]
            rw [covers_addUnknown hlast t, hspec t]
            constructor
            · rintro (hc | hc)
              · exact Or.inl hc
              · exact Or.inr ⟨hc.1, by omega, Or.inr h3⟩
            · rintro (hc | ⟨ha, hb, _⟩)
              · exact Or.inl hc
              · exact Or.inr ⟨ha, by omega⟩
        · simp only [if_neg h3]
          by_cases h4 : min e (c.checked_at + intervalSec * 2) < e
          · simp only [if_pos h4]
            rw [covers_addUnknown (show ∀ last ∈ u.getLast?,
                last.start ≤ min e (c.checked_at + intervalSec * 2) from
                fun last hl => by have := hlast last hl; omega) t,
              hspec t]
            constructor
            · rintro (hc | hc)
              · exact Or.inl hc
              · exact Or.inr ⟨by omega, hc.2, Or.inl (by omega)⟩
            · rintro (hc | ⟨ha, hb, (hv | hst)⟩)
              · exact Or.inl hc
              · exact Or.inr ⟨by omega, hb⟩
              · exact absurd hst h3
          · simp only [if_neg h4]
            rw [hspec t]
            constructor
            · exact Or.inl
            · rintro (hc | ⟨ha, hb, (hv | hst)⟩)
              · exact hc
              · omega
              · exact absurd hst h3

theorem foldl_unkStep_broke (lo hi i : Int) :
    ∀ (cs : List CheckRow) (st : UnkState), st.broke = true →
      cs.foldl (unkStep lo hi i) st = st
  | [], _, _ => rfl
  | c :: cs, st, h => by
    rw [List.foldl_cons]
    have hstep : unkStep lo hi i st c = st := by
      unfold unkStep
      rw [if_pos h]
    rw [hstep]
    exact foldl_unkStep_broke lo hi i cs st h

theorem lastProbe2_some_le {lc : Option CheckRow} {checks : List CheckRow}
    {t : Int} {c : CheckRow} (hle : ∀ d ∈ lc, d.checked_at ≤ t)
    (h : lastProbe2 lc checks t = some c) : c.checked_at ≤ t := by
  unfold lastProbe2 at h
  cases hf : (checks.filter fun x => decide (x.checked_at ≤ t)).getLast? with
  | some d =>
    rw [hf] at h
    obtain rfl : d = c := Option.some.inj h
    have hmem := List.mem_of_mem_getLast? (Option.mem_def.mpr hf)
    have := List.mem_filter.mp hmem
    simpa using this.2
  | none =>
    rw [hf] at h
    exact hle c (Option.mem_def.mpr h)

/-- Coverage semantics of the whole check walk plus the final segment:
relative to any loop state, the result covers the previously accumulated
unknown points plus exactly the points of `[cursor, rangeEnd)` that the
remaining checks leave unknown. -/
theorem unk_loop_covers (lo hi i : Int) :
    ∀ (cs : List CheckRow) (st : UnkState) (t : Int),
      st.broke = false →
      lo ≤ st.cursor →
      IChainIn lo st.cursor st.unknown →
      cs.Pairwise (fun a b => a.checked_at ≤ b.checked_at) →
      (∀ c ∈ cs, st.cursor ≤ c.checked_at ∨ c.checked_at < lo) →
      (Covers (processSegment
          (cs.foldl (unkStep lo hi i) st).lastCheck i
          (cs.foldl (unkStep lo hi i) st).unknown
          (cs.foldl (unkStep lo hi i) st).cursor hi) t ↔
        Covers st.unknown t ∨
          (st.cursor ≤ t ∧ t < hi ∧
            statusSpec (lastProbe2 st.lastCheck cs t) i t))
  | [], st, t, _, _, hchain, _, _ => by
    rw [List.foldl_nil, covers_processSegment
      (ichainIn_getLast_start_le hchain) t, lastProbe2_nil]
  | c :: cs, st, t, hbroke, hcur, hchain, hpw, hpos => by
    rw [List.foldl_cons]
    have hpwh : ∀ d ∈ cs, c.checked_at ≤ d.checked_at :=
      fun d hd => List.rel_of_pairwise_cons hpw hd
    have hpwt := List.Pairwise.of_cons hpw
    by_cases hc1 : c.checked_at < lo
    · have hstep : unkStep lo hi i st c = { st with lastCheck := some c } := by
        unfold unkStep
        rw [if_neg (by simp [hbroke]), if_pos hc1]
      rw [hstep]
      have ih := unk_loop_covers lo hi i cs { st with lastCheck := some c } t
        hbroke hcur hchain hpwt
        (fun d hd => hpos d (List.mem_cons_of_mem _ hd))
      rw [ih]
      constructor
      · rintro (hc | ⟨h1, h2, h3⟩)
        · exact Or.inl hc
        · have h1' : st.cursor ≤ t := h1
          refine Or.inr ⟨h1', h2, ?_⟩
          rwa [lastProbe2_cons_le st.lastCheck (by omega)]
      · rintro (hc | ⟨h1, h2, h3⟩)
        · exact Or.inl hc
        · refine Or.inr ⟨h1, h2, ?_⟩
          rwa [lastProbe2_cons_le st.lastCheck (by omega)] at h3
    · by_cases hc2 : hi ≤ c.checked_at
      · have hstep : unkStep lo hi i st c = { st with broke := true } := by
          unfold unkStep
          rw [if_neg (by simp [hbroke]), if_neg hc1, if_pos hc2]
        rw [hstep, foldl_unkStep_broke lo hi i cs { st with broke := true } rfl]
        rw [covers_processSegment (ichainIn_getLast_start_le hchain) t]
        constructor
        · rintro (hc | ⟨h1, h2, h3⟩)
          · exact Or.inl hc
          · refine Or.inr ⟨h1, h2, ?_⟩
            rwa [lastProbe2_cons_gt st.lastCheck (by omega) hpwh]
        · rintro (hc | ⟨h1, h2, h3⟩)
          · exact Or.inl hc
          · refine Or.inr ⟨h1, h2, ?_⟩
            rwa [lastProbe2_cons_gt st.lastCheck (by omega) hpwh] at h3
      · have hcc : st.cursor ≤ c.checked_at := by
          rcases hpos c (by simp) with h | h
          · exact h
          · omega
        have hstep : unkStep lo hi i st c =
            ⟨some c, c.checked_at,
              processSegment st.lastCheck i st.unknown st.cursor c.checked_at,
              false⟩ := by
          unfold unkStep
          rw [if_neg (by simp [hbroke]), if_neg hc1, if_neg hc2]
        rw [hstep]
        have hchain' : IChainIn lo c.checked_at
            (processSegment st.lastCheck i st.unknown st.cursor c.checked_at) :=
          processSegment_ichainIn (ichainIn_mono hchain (le_refl _) hcc)
            hcur (le_refl _)
        have ih := unk_loop_covers lo hi i cs
          ⟨some c, c.checked_at,
            processSegment st.lastCheck i st.unknown st.cursor c.checked_at,
            false⟩ t rfl (show lo ≤ c.checked_at by omega) hchain' hpwt
          (fun d hd => Or.inl (hpwh d hd))
        rw [ih, covers_processSegment (ichainIn_getLast_start_le hchain) t]
        constructor
        · rintro ((hc | ⟨h1, h2, h3⟩) | ⟨h1, h2, h3⟩)
          · exact Or.inl hc
          · refine Or.inr ⟨h1, by omega, ?_⟩
            rwa [lastProbe2_cons_gt st.lastCheck (by omega) hpwh]
          · have h1' : c.checked_at ≤ t := h1
            refine Or.inr ⟨by omega, h2, ?_⟩
            rwa [lastProbe2_cons_le st.lastCheck (by omega)]
        · rintro (hc | ⟨h1, h2, h3⟩)
          · exact Or.inl (Or.inl hc)
          · by_cases hct : t < c.checked_at
            · refine Or.inl (Or.inr ⟨h1, hct, ?_⟩)
              rwa [lastProbe2_cons_gt st.lastCheck (by omega) hpwh] at h3
            · refine Or.inr ⟨show c.checked_at ≤ t by omega, h2, ?_⟩
              rwa [lastProbe2_cons_le st.lastCheck (by omega)] at h3

/-- C3 (amended): with checks walked in chronological order, a point `t`
of the query window is covered by the unknown intervals iff the most
recent probe at or before `t` (including probes from before the window)
either no longer covers `t` (its validity window `[checked_at,
checked_at + 2 * interval_sec)` has passed) or has status `unknown`, or no
such probe exists (the segment before the first observed probe); and
nothing outside the window is ever covered. -/
theorem buildUnknownIntervals_pointwise (rangeStart rangeEnd intervalSec : Int)
    (checks : List CheckRow)
    (hsorted : checks.Pairwise fun a b => a.checked_at ≤ b.checked_at)
    (t : Int) :
    (Covers (buildUnknownIntervals rangeStart rangeEnd intervalSec checks) t →
      rangeStart ≤ t ∧ t < rangeEnd) ∧
    (rangeStart ≤ t → t < rangeEnd →
      (Covers (buildUnknownIntervals rangeStart rangeEnd intervalSec checks) t ↔
        unknownAtSpec intervalSec checks t)) := by
  constructor
  · intro hc
    obtain ⟨it, hit, h1, h2⟩ := hc
    have hb := (buildUnknownIntervals_ichainIn rangeStart rangeEnd
      intervalSec checks).2 it hit
    omega
  · intro ht1 ht2
    unfold buildUnknownIntervals
    rw [if_neg (by omega)]
    by_cases h2 : intervalSec ≤ 0
    · rw [if_pos h2]
      have hleft : Covers [Interval.mk rangeStart rangeEnd] t := by
        refine ⟨⟨rangeStart, rangeEnd⟩, by simp, ?_, ?_⟩ <;> simpa
      have hright : unknownAtSpec intervalSec checks t := by
        unfold unknownAtSpec statusSpec
        intro c hc
        have := @lastProbe2_some_le none _ _ _ (by simp) (Option.mem_def.mp hc)
        left
        omega
      exact iff_of_true hleft hright
    · rw [if_neg h2]
      have hloop := unk_loop_covers rangeStart rangeEnd intervalSec checks
        ⟨none, rangeStart, [], false⟩ t rfl (le_refl _) ichainIn_nil hsorted
        (fun c _ =>
          show rangeStart ≤ c.checked_at ∨ c.checked_at < rangeStart by omega)
      rw [hloop]
      unfold unknownAtSpec
      constructor
      · rintro (hc | ⟨_, _, h3⟩)
        · exact absurd hc (covers_nil t)
        · exact h3
      · intro hspec
        exact Or.inr ⟨ht1, ht2, hspec⟩

/-- Witness for C3's amended characterization at a concrete input: a
single `maintenance` probe at the window start keeps the whole window
known (not unknown) at `t = 5`. -/
theorem buildUnknownIntervals_pointwise_witness :
    Covers (buildUnknownIntervals 0 100 60 [⟨0, ("maintenance" : String)⟩]) 5 ↔
      unknownAtSpec 60 [⟨0, ("maintenance" : String)⟩] 5 :=
  (buildUnknownIntervals_pointwise 0 100 60 [⟨0, ("maintenance" : String)⟩]
    (by simp) 5).2 (by omega) (by omega)

/-- The coverage notion asserted by the claim, following the spec's
words: a check result at time `t` covers `[t, t + 2 * interval_sec)`, and
the claim treats a segment as unknown whenever it is not covered by a
result whose status is `up` or `down`. -/
def specCoveredByUpDown (intervalSec : Int) (checks : List CheckRow) (t : Int) :
    Prop :=
  ∃ c ∈ checks, (c.status = ("up" : String) ∨ c.status = ("down" : String)) ∧
    c.checked_at ≤ t ∧ t < c.checked_at + intervalSec * 2

instance (intervalSec : Int) (checks : List CheckRow) (t : Int) :
    Decidable (specCoveredByUpDown intervalSec checks t) := by
  unfold specCoveredByUpDown
  infer_instance

/-- Counterexample to C3 as stated: in the window `[0, 100)` with
`interval_sec = 60` and a single probe of status `maintenance` at `t = 0`,
the point `t = 5` is not covered by any `up`/`down` result, so by the
claim it must contribute to the unknown intervals, yet
`buildUnknownIntervals` covers nothing (a `maintenance` covering probe is
treated as known). -/
theorem buildUnknownIntervals_claim_counterexample :
    ¬ specCoveredByUpDown 60 [⟨0, ("maintenance" : String)⟩] 5 ∧
      ¬ Covers (buildUnknownIntervals 0 100 60 [⟨0, ("maintenance" : String)⟩]) 5 := by
  constructor
  · decide
  · decide

/-! ## The uptime percentage (claim C4) -/

/-- The uptime percentage as the claim states it, following the spec's
words: `100 * uptime_sec / total_sec`, or null (`none`) when
`total_sec = 0`. -/
def uptimePctClaim (total_sec uptime_sec : Int) : Option ℚ :=
  if total_sec = 0 then none
  else some (100 * (uptime_sec : ℚ) / (total_sec : ℚ))

/-- C4 (amended): for every uptime computation, `uptime_pct` equals
`100 * uptime_sec / total_sec` when `total_sec ≠ 0`, and equals the
number `0` (not null) when `total_sec = 0`. -/
theorem uptime_pct_formula (rangeStart rangeEnd intervalSec : Int)
    (outages : List OutageRow) (checks : List CheckRow) :
    (uptimeTotals rangeStart rangeEnd intervalSec outages checks).uptime_pct =
      if (uptimeTotals rangeStart rangeEnd intervalSec outages checks).total_sec = 0
      then 0
      else 100 *
        ((uptimeTotals rangeStart rangeEnd intervalSec outages checks).uptime_sec : ℚ) /
        ((uptimeTotals rangeStart rangeEnd intervalSec outages checks).total_sec : ℚ) := by
  simp only [uptimeTotals, uptimePct]
  split_ifs with h
  · rfl
  · ring

/-- Counterexample to C4 as stated: for the empty window (`total_sec = 0`)
the route returns the JSON number `0` for `uptime_pct`, never null, so the
returned value differs from the claim's `null`. -/
theorem uptime_pct_zero_counterexample :
    (uptimeTotals 0 0 60 [] []).total_sec = 0 ∧
    (uptimeTotals 0 0 60 [] []).uptime_pct = 0 ∧
    some ((uptimeTotals 0 0 60 [] []).uptime_pct) ≠
      uptimePctClaim (uptimeTotals 0 0 60 [] []).total_sec
        (uptimeTotals 0 0 60 [] []).uptime_sec := by
  refine ⟨rfl, rfl, ?_⟩
  have hz : (uptimeTotals 0 0 60 [] []).total_sec = 0 := rfl
  simp only [uptimePctClaim, if_pos hz]
  exact Option.some_ne_none _

/-! ## The public status snapshot fallback (claim C6) -/

/-- A `public_snapshots` row as read by `readStaleStatusSnapshot`
(`public.ts` lines 18–21). -/
structure PublicStatusSnapshotRow where
  generated_at : Int
  body_json : String

/-- `safeJsonParse` from `public.ts` (lines 23–31): trim, reject the
empty string, then `JSON.parse`.  The platform `JSON.parse` is abstracted
as `parse`; `none` stands both for a parse exception and for a parsed
JSON `null` (the caller treats `parsed === null` as failure either way). -/
def safeJsonParse {α : Type} (parse : String → Option α) (text : String) :
    Option α :=
  let trimmed := text.trim
  if trimmed = ("" : String) then none else parse trimmed

/-- `readStaleStatusSnapshot` from `public.ts` (lines 33–61).  The D1
read, which the source wraps in `try`/`catch` (returning `null` on
error), is an explicit outcome: `Except.error` for a thrown database
error, `Except.ok none` for no row. -/
def readStaleStatusSnapshot {α : Type} (parse : String → Option α)
    (fetchRow : Except Unit (Option PublicStatusSnapshotRow))
    (now maxStaleSeconds : Int) : Option (α × Int) :=
  match fetchRow with
  | .error _ => none
  | .ok none => none
  | .ok (some row) =>
    let age := max 0 (now - row.generated_at)
    if maxStaleSeconds < age then none
    else
      match safeJsonParse parse row.body_json with
      | none => none
      | some parsed => some (parsed, age)

/-- The `catch` branch of `GET /status` (`public.ts` lines 472–485): on a
failed recompute, serve a bounded-stale snapshot (with cache-header age
capped at 60) if one exists within `10 * 60` seconds, else rethrow the
original error. -/
def statusComputeFailureFallback {α : Type} (parse : String → Option α)
    (fetchRow : Except Unit (Option PublicStatusSnapshotRow)) (now : Int) :
    Except Unit (α × Int) :=
  match readStaleStatusSnapshot parse fetchRow now (10 * 60) with
  | some stale => .ok (stale.1, min 60 stale.2)
  | none => .error ()

/-- C6: when computing a fresh `/status` payload fails, a stored snapshot
is served exactly when one exists whose age is at most 10 minutes (600
seconds) and whose body parses; otherwise the error propagates and no
stale content is served. -/
theorem status_stale_fallback_bounded {α : Type} (parse : String → Option α)
    (fetchRow : Except Unit (Option PublicStatusSnapshotRow)) (now : Int) :
    (∃ d, statusComputeFailureFallback parse fetchRow now = .ok d) ↔
      ∃ row p, fetchRow = Except.ok (some row) ∧
        max 0 (now - row.generated_at) ≤ 600 ∧
        safeJsonParse parse row.body_json = some p := by
  unfold statusComputeFailureFallback readStaleStatusSnapshot
  match fetchRow with
  | .error e =>
    simp
  | .ok none =>
    simp
  | .ok (some row) =>
    dsimp only
    by_cases hage : (600 : Int) < max 0 (now - row.generated_at)
    · rw [if_pos (show (10 * 60 : Int) < max 0 (now - row.generated_at) by omega)]
      simp only [Except.ok.injEq, Option.some.injEq]
      constructor
      · rintro ⟨d, hd⟩
        exact absurd hd (by simp)
      · rintro ⟨row', p, hrow, hb, _⟩
        obtain rfl : row = row' := by simpa using hrow
        omega
    · rw [if_neg (show ¬ (10 * 60 : Int) < max 0 (now - row.generated_at) by omega)]
      cases hp : safeJsonParse parse row.body_json with
      | none =>
        simp only []
        constructor
        · rintro ⟨d, hd⟩
          exact absurd hd (by simp)
        · rintro ⟨row', p, hrow, _, hparse⟩
          obtain rfl : row = row' := by simpa using hrow
          rw [hp] at hparse
          exact absurd hparse (by simp)
      | some parsed =>
        constructor
        · rintro ⟨d, _⟩
          exact ⟨row, parsed, rfl, by omega, hp⟩
        · rintro ⟨row', p, hrow, _, _⟩
          exact ⟨_, rfl⟩

/-! ## Pagination of `/incidents` and `/maintenance-windows` (claim C9) -/

/-- A `maintenance_windows` row (`public.ts` lines 383–390). -/
structure MaintenanceWindowRow where
  id : Int
  title : String
  message : Option String
  starts_at : Int
  ends_at : Int
  created_at : Int
deriving DecidableEq, Repr

/-- An `incidents` row (`public.ts` lines 250–258). -/
structure IncidentRow where
  id : Int
  title : String
  status : String
  impact : String
  message : Option String
  started_at : Int
  resolved_at : Option Int
deriving DecidableEq, Repr

/-- `ORDER BY id DESC` for maintenance windows. -/
def mwIdDescLe (a b : MaintenanceWindowRow) : Prop := b.id ≤ a.id

instance : DecidableRel mwIdDescLe := fun a b => by
  unfold mwIdDescLe; infer_instance

instance : IsTotal MaintenanceWindowRow mwIdDescLe :=
  ⟨fun a b => le_total b.id a.id⟩

instance : IsTrans MaintenanceWindowRow mwIdDescLe :=
  ⟨fun _ _ _ hab hbc => le_trans hbc hab⟩

/-- `ORDER BY id DESC` for incidents. -/
def incIdDescLe (a b : IncidentRow) : Prop := b.id ≤ a.id

instance : DecidableRel incIdDescLe := fun a b => by
  unfold incIdDescLe; infer_instance

instance : IsTotal IncidentRow incIdDescLe :=
  ⟨fun a b => le_total b.id a.id⟩

instance : IsTrans IncidentRow incIdDescLe :=
  ⟨fun _ _ _ hab hbc => le_trans hbc hab⟩

/-- `ORDER BY started_at DESC, id DESC` for active incidents. -/
def incStartedDescLe (a b : IncidentRow) : Prop :=
  b.started_at < a.started_at ∨ (b.started_at = a.started_at ∧ b.id ≤ a.id)

instance : DecidableRel incStartedDescLe := fun a b => by
  unfold incStartedDescLe; infer_instance

instance : IsTotal IncidentRow incStartedDescLe :=
  ⟨fun a b => by
    unfold incStartedDescLe
    rcases lt_trichotomy a.started_at b.started_at with h | h | h
    · exact Or.inr (Or.inl h)
    · rcases le_total b.id a.id with h2 | h2
      · exact Or.inl (Or.inr ⟨h.symm, h2⟩)
      · exact Or.inr (Or.inr ⟨h, h2⟩)
    · exact Or.inl (Or.inl h)⟩

instance : IsTrans IncidentRow incStartedDescLe :=
  ⟨fun a b c hab hbc => by
    unfold incStartedDescLe at *
    rcases hab with h1 | ⟨h1, h1'⟩ <;> rcases hbc with h2 | ⟨h2, h2'⟩
    · exact Or.inl (by omega)
    · exact Or.inl (by omega)
    · exact Or.inl (by omega)
    · exact Or.inr ⟨by omega, by omega⟩⟩

/-- The paged maintenance-windows query (`public.ts` lines 606–631):
rows with `ends_at <= now`, plus `id < cursor` when a cursor is given,
ordered by id descending, `LIMIT limit + 1`.  SQL ordering by the unique
primary key is modelled by a stable sort. -/
def mwQuery (rows : List MaintenanceWindowRow) (now : Int)
    (cursor : Option Int) (limitPlusOne : Nat) : List MaintenanceWindowRow :=
  (((rows.filter fun r =>
      decide (r.ends_at ≤ now) &&
        match cursor with
        | some c => decide (r.id < c)
        | none => true).insertionSort mwIdDescLe).take limitPlusOne)

/-- `GET /maintenance-windows` (`public.ts` lines 592–653): fetch
`limit + 1` rows, return the first `limit`, set `next_cursor` to the id
of the last returned row iff an extra row was fetched. -/
def maintenanceWindowsPage (rows : List MaintenanceWindowRow) (now : Int)
    (limit : Nat) (cursor : Option Int) :
    List MaintenanceWindowRow × Option Int :=
  let allWindows := mwQuery rows now cursor (limit + 1)
  let windows := allWindows.take limit
  let next_cursor :=
    if limit < allWindows.length then windows.getLast?.map (fun w => w.id)
    else none
  (windows, next_cursor)

/-- The active-incidents query (`public.ts` lines 512–522): unresolved
incidents ordered by `started_at DESC, id DESC`, `LIMIT limit`. -/
def incidentsActiveQuery (rows : List IncidentRow) (limit : Nat) :
    List IncidentRow :=
  (((rows.filter fun r =>
      !(decide (r.status = ("resolved" : String)))).insertionSort
    incStartedDescLe).take limit)

/-- The resolved-incidents query (`public.ts` lines 534–559): resolved
incidents, plus `id < cursor` when a cursor is given, ordered by id
descending, `LIMIT takeN`. -/
def incidentsResolvedQuery (rows : List IncidentRow) (cursor : Option Int)
    (takeN : Nat) : List IncidentRow :=
  (((rows.filter fun r =>
      decide (r.status = ("resolved" : String)) &&
        match cursor with
        | some c => decide (r.id < c)
        | none => true).insertionSort incIdDescLe).take takeN)

/-- `GET /incidents` (`public.ts` lines 488–590): active incidents first
(unless `resolved_only`), then resolved incidents filling the remaining
space, with `next_cursor` from the resolved over-fetch. -/
def incidentsPage (rows : List IncidentRow) (limit : Nat)
    (cursor : Option Int) (resolvedOnly : Bool) :
    List IncidentRow × Option Int :=
  let active := if resolvedOnly then [] else incidentsActiveQuery rows limit
  let remaining := limit - active.length
  if 0 < remaining then
    let allResolved := incidentsResolvedQuery rows cursor (remaining + 1)
    let resolved := allResolved.take remaining
    let next_cursor :=
      if remaining < allResolved.length then
        resolved.getLast?.map (fun r => r.id)
      else none
    (active ++ resolved, next_cursor)
  else (active, none)

theorem take_sort_pairwise {α : Type} (le : α → α → Prop)
    [DecidableRel le] [IsTotal α le] [IsTrans α le]
    {R : α → α → Prop} (hsym : ∀ a b, R a b → R b a)
    {l : List α} (hd : l.Pairwise R) (n : Nat) :
    ((l.insertionSort le).take n).Pairwise fun a b => le a b ∧ R a b := by
  have hs : (l.insertionSort le).Pairwise le := List.sorted_insertionSort le l
  have hd' : (l.insertionSort le).Pairwise R :=
    ((List.perm_insertionSort le l).pairwise_iff
      (fun h => hsym _ _ h)).mpr hd
  exact (hs.and hd').sublist (List.take_sublist n _)

theorem mem_take_sort {α : Type} (le : α → α → Prop) [DecidableRel le]
    {l : List α} {n : Nat} {a : α}
    (h : a ∈ (l.insertionSort le).take n) : a ∈ l := by
  have h1 := (List.take_sublist n _).mem h
  exact (List.perm_insertionSort le l).mem_iff.mp h1

theorem mwQuery_mem {rows : List MaintenanceWindowRow} {now : Int}
    {cursor : Option Int} {n : Nat} {w : MaintenanceWindowRow}
    (h : w ∈ mwQuery rows now cursor n) :
    w ∈ rows ∧ w.ends_at ≤ now ∧ ∀ c, cursor = some c → w.id < c := by
  unfold mwQuery at h
  have h1 := mem_take_sort _ h
  obtain ⟨hmem, hp⟩ := List.mem_filter.mp h1
  rw [Bool.and_eq_true] at hp
  refine ⟨hmem, by simpa using hp.1, ?_⟩
  intro c hc
  rw [hc] at hp
  simpa using hp.2

theorem mwQuery_pairwise {rows : List MaintenanceWindowRow} {now : Int}
    {cursor : Option Int} {n : Nat}
    (hd : rows.Pairwise fun a b => a.id ≠ b.id) :
    (mwQuery rows now cursor n).Pairwise fun a b => b.id < a.id := by
  unfold mwQuery
  refine (take_sort_pairwise mwIdDescLe (R := fun a b => a.id ≠ b.id)
    (fun a b h => h.symm)
    (l := rows.filter fun r =>
      decide (r.ends_at ≤ now) &&
        match cursor with
        | some c => decide (r.id < c)
        | none => true)
    (hd.sublist (List.filter_sublist rows)) n).imp ?_
  intro a b hab
  obtain ⟨h1, h2⟩ := hab
  unfold mwIdDescLe at h1
  omega

/-- C9's property for the maintenance-windows endpoint, packaged. -/
theorem maintenanceWindowsPage_correct (rows : List MaintenanceWindowRow)
    (now : Int) (limit : Nat) (cursor : Option Int)
    (hd : rows.Pairwise fun a b => a.id ≠ b.id) :
    (maintenanceWindowsPage rows now limit cursor).1.length ≤ limit ∧
    (maintenanceWindowsPage rows now limit cursor).1.Pairwise
      (fun a b => b.id < a.id) ∧
    (∀ i, (maintenanceWindowsPage rows now limit cursor).2 = some i →
      ∃ w, (maintenanceWindowsPage rows now limit cursor).1.getLast? = some w ∧
        w.id = i) ∧
    (∀ c, cursor = some c →
      ∀ w ∈ (maintenanceWindowsPage rows now limit cursor).1, w.id < c) := by
  unfold maintenanceWindowsPage
  dsimp only
  refine ⟨?_, ?_, ?_, ?_⟩
  · exact List.length_take_le _ _
  · exact (mwQuery_pairwise hd).sublist (List.take_sublist _ _)
  · intro i hi
    by_cases hl : limit < (mwQuery rows now cursor (limit + 1)).length
    · rw [if_pos hl] at hi
      obtain ⟨w, hw, hid⟩ := Option.map_eq_some'.mp hi
      exact ⟨w, hw, hid⟩
    · rw [if_neg hl] at hi
      exact absurd hi (by simp)
  · intro c hc w hw
    exact (mwQuery_mem ((List.take_sublist _ _).mem hw)).2.2 c hc

theorem incidentsActiveQuery_mem {rows : List IncidentRow} {limit : Nat}
    {r : IncidentRow} (h : r ∈ incidentsActiveQuery rows limit) :
    r ∈ rows ∧ ¬ r.status = ("resolved" : String) := by
  unfold incidentsActiveQuery at h
  have h1 := mem_take_sort _ h
  obtain ⟨hmem, hp⟩ := List.mem_filter.mp h1
  exact ⟨hmem, by simpa using hp⟩

theorem incidentsActiveQuery_pairwise {rows : List IncidentRow} {limit : Nat}
    (hd : rows.Pairwise fun a b => a.id ≠ b.id) :
    (incidentsActiveQuery rows limit).Pairwise
      (fun a b => b.started_at < a.started_at ∨
        (b.started_at = a.started_at ∧ b.id < a.id)) := by
  unfold incidentsActiveQuery
  refine (take_sort_pairwise incStartedDescLe (R := fun a b => a.id ≠ b.id)
    (fun a b h => h.symm)
    (l := rows.filter fun r => !(decide (r.status = ("resolved" : String))))
    (hd.sublist (List.filter_sublist rows)) limit).imp ?_
  intro a b hab
  obtain ⟨h1, h2⟩ := hab
  unfold incStartedDescLe at h1
  rcases h1 with h1 | ⟨h1, h1'⟩
  · exact Or.inl h1
  · exact Or.inr ⟨h1, by omega⟩

theorem incidentsResolvedQuery_mem {rows : List IncidentRow}
    {cursor : Option Int} {n : Nat} {r : IncidentRow}
    (h : r ∈ incidentsResolvedQuery rows cursor n) :
    r ∈ rows ∧ r.status = ("resolved" : String) ∧
      ∀ c, cursor = some c → r.id < c := by
  unfold incidentsResolvedQuery at h
  have h1 := mem_take_sort _ h
  obtain ⟨hmem, hp⟩ := List.mem_filter.mp h1
  rw [Bool.and_eq_true] at hp
  refine ⟨hmem, by simpa using hp.1, ?_⟩
  intro c hc
  rw [hc] at hp
  simpa using hp.2

theorem incidentsResolvedQuery_pairwise {rows : List IncidentRow}
    {cursor : Option Int} {n : Nat}
    (hd : rows.Pairwise fun a b => a.id ≠ b.id) :
    (incidentsResolvedQuery rows cursor n).Pairwise
      (fun a b => b.id < a.id) := by
  unfold incidentsResolvedQuery
  refine (take_sort_pairwise incIdDescLe (R := fun a b => a.id ≠ b.id)
    (fun a b h => h.symm)
    (l := rows.filter fun r =>
      decide (r.status = ("resolved" : String)) &&
        match cursor with
        | some c => decide (r.id < c)
        | none => true)
    (hd.sublist (List.filter_sublist rows)) n).imp ?_
  intro a b hab
  obtain ⟨h1, h2⟩ := hab
  unfold incIdDescLe at h1
  omega

/-- C9's (amended) properties for the incidents endpoint, packaged. -/
theorem incidentsPage_correct (rows : List IncidentRow) (limit : Nat)
    (cursor : Option Int) (resolvedOnly : Bool)
    (hd : rows.Pairwise fun a b => a.id ≠ b.id) :
    (incidentsPage rows limit cursor resolvedOnly).1.length ≤ limit ∧
    (incidentsPage rows limit cursor resolvedOnly).1 =
      ((incidentsPage rows limit cursor resolvedOnly).1.filter fun r =>
        !(decide (r.status = ("resolved" : String)))) ++
      ((incidentsPage rows limit cursor resolvedOnly).1.filter fun r =>
        decide (r.status = ("resolved" : String))) ∧
    ((incidentsPage rows limit cursor resolvedOnly).1.filter fun r =>
        decide (r.status = ("resolved" : String))).Pairwise
      (fun a b => b.id < a.id) ∧
    ((incidentsPage rows limit cursor resolvedOnly).1.filter fun r =>
        !(decide (r.status = ("resolved" : String)))).Pairwise
      (fun a b => b.started_at < a.started_at ∨
        (b.started_at = a.started_at ∧ b.id < a.id)) ∧
    (∀ i, (incidentsPage rows limit cursor resolvedOnly).2 = some i →
      ∃ r, (incidentsPage rows limit cursor resolvedOnly).1.getLast? = some r ∧
        r.id = i ∧ r.status = ("resolved" : String)) ∧
    (∀ c, cursor = some c →
      ∀ r ∈ (incidentsPage rows limit cursor resolvedOnly).1,
        r.status = ("resolved" : String) → r.id < c) := by
  unfold incidentsPage
  dsimp only
  set active := if resolvedOnly then [] else incidentsActiveQuery rows limit
    with hactive
  have hActiveMem : ∀ r ∈ active, ¬ r.status = ("resolved" : String) := by
    intro r hr
    rw [hactive] at hr
    by_cases hro : resolvedOnly
    · rw [if_pos hro] at hr
      exact absurd hr (List.not_mem_nil r)
    · rw [if_neg hro] at hr
      exact (incidentsActiveQuery_mem hr).2
  have hActiveLen : active.length ≤ limit := by
    rw [hactive]
    by_cases hro : resolvedOnly
    · simp [hro]
    · rw [if_neg hro]
      exact List.length_take_le _ _
  have hActivePw : active.Pairwise
      (fun a b => b.started_at < a.started_at ∨
        (b.started_at = a.started_at ∧ b.id < a.id)) := by
    rw [hactive]
    by_cases hro : resolvedOnly
    · simp [hro]
    · rw [if_neg hro]
      exact incidentsActiveQuery_pairwise hd
  have hActiveFilterNeg :
      (active.filter fun r => !(decide (r.status = ("resolved" : String)))) =
        active := by
    rw [List.filter_eq_self]
    intro r hr
    simpa using hActiveMem r hr
  have hActiveFilterPos :
      (active.filter fun r => decide (r.status = ("resolved" : String))) = [] := by
    rw [List.filter_eq_nil_iff]
    intro r hr
    simpa using hActiveMem r hr
  by_cases hrem : 0 < limit - active.length
  · rw [if_pos hrem]
    dsimp only
    set allResolved := incidentsResolvedQuery rows cursor
      (limit - active.length + 1) with hallr
    set resolved := allResolved.take (limit - active.length) with hres
    have hResolvedSub : ∀ r ∈ resolved, r ∈ allResolved := by
      intro r hr
      exact (List.take_sublist _ _).mem hr
    have hResolvedMem : ∀ r ∈ resolved, r.status = ("resolved" : String) ∧
        ∀ c, cursor = some c → r.id < c := by
      intro r hr
      have := incidentsResolvedQuery_mem (hallr ▸ hResolvedSub r hr)
      exact ⟨this.2.1, this.2.2⟩
    have hResolvedFilterPos :
        (resolved.filter fun r => decide (r.status = ("resolved" : String))) =
          resolved := by
      rw [List.filter_eq_self]
      intro r hr
      simpa using (hResolvedMem r hr).1
    have hResolvedFilterNeg :
        (resolved.filter fun r => !(decide (r.status = ("resolved" : String)))) =
          [] := by
      rw [List.filter_eq_nil_iff]
      intro r hr
      simpa using (hResolvedMem r hr).1
    have hFilterPos : ((active ++ resolved).filter fun r =>
        decide (r.status = ("resolved" : String))) = resolved := by
      rw [List.filter_append, hActiveFilterPos, hResolvedFilterPos,
        List.nil_append]
    have hFilterNeg : ((active ++ resolved).filter fun r =>
        !(decide (r.status = ("resolved" : String)))) = active := by
      rw [List.filter_append, hActiveFilterNeg, hResolvedFilterNeg,
        List.append_nil]
    refine ⟨?_, ?_, ?_, ?_, ?_, ?_⟩
    · rw [List.length_append]
      have h1 : resolved.length ≤ limit - active.length := by
        rw [hres]
        exact List.length_take_le _ _
      omega
    · rw [hFilterPos, hFilterNeg]
    · rw [hFilterPos, hres, hallr]
      exact (incidentsResolvedQuery_pairwise hd).sublist (List.take_sublist _ _)
    · rw [hFilterNeg]
      exact hActivePw
    · intro i hi
      by_cases hmore : limit - active.length < allResolved.length
      · rw [if_pos hmore] at hi
        obtain ⟨r, hr, hid⟩ := Option.map_eq_some'.mp hi
        have hrnn : resolved ≠ [] := by
          intro hnil
          rw [hnil] at hr
          exact absurd hr (by simp)
        refine ⟨r, ?_, hid, ?_⟩
        · rw [List.getLast?_append_of_ne_nil active hrnn]
          exact hr
        · exact (hResolvedMem r (List.mem_of_mem_getLast? hr)).1
      · rw [if_neg hmore] at hi
        exact absurd hi (by simp)
    · intro c hc r hr hstatus
      rcases List.mem_append.mp hr with hmem | hmem
      · exact absurd hstatus (hActiveMem r hmem)
      · exact (hResolvedMem r hmem).2 c hc
  · rw [if_neg hrem]
    refine ⟨hActiveLen, ?_, ?_, ?_, ?_, ?_⟩
    · rw [hActiveFilterNeg, hActiveFilterPos, List.append_nil]
    · rw [hActiveFilterPos]
      exact List.Pairwise.nil
    · rw [hActiveFilterNeg]
      exact hActivePw
    · intro i hi
      exact absurd hi (by simp)
    · intro c hc r hr hstatus
      exact absurd hstatus (hActiveMem r hr)

/-- C9 (amended): both endpoints return at most `limit` items.  The
maintenance-windows page is in strictly descending id order, its
`next_cursor` (when non-null) is the id of the last returned item, and a
cursor restricts the page to smaller ids.  The incidents page lists the
active (unresolved) incidents first, ordered by `started_at` then id
descending and unaffected by the cursor; only its resolved tail is
paginated by strictly descending id, the cursor restricts only that tail
to smaller ids, and `next_cursor` (when non-null) is the id of the last
returned (resolved) item. -/
theorem pagination_by_descending_id (mwRows : List MaintenanceWindowRow)
    (now : Int) (limit1 : Nat) (cursor1 : Option Int)
    (incRows : List IncidentRow) (limit2 : Nat) (cursor2 : Option Int)
    (resolvedOnly : Bool)
    (hmw : mwRows.Pairwise fun a b => a.id ≠ b.id)
    (hinc : incRows.Pairwise fun a b => a.id ≠ b.id) :
    ((maintenanceWindowsPage mwRows now limit1 cursor1).1.length ≤ limit1 ∧
      (maintenanceWindowsPage mwRows now limit1 cursor1).1.Pairwise
        (fun a b => b.id < a.id) ∧
      (∀ i, (maintenanceWindowsPage mwRows now limit1 cursor1).2 = some i →
        ∃ w, (maintenanceWindowsPage mwRows now limit1 cursor1).1.getLast? =
          some w ∧ w.id = i) ∧
      (∀ c, cursor1 = some c →
        ∀ w ∈ (maintenanceWindowsPage mwRows now limit1 cursor1).1, w.id < c)) ∧
    ((incidentsPage incRows limit2 cursor2 resolvedOnly).1.length ≤ limit2 ∧
      (incidentsPage incRows limit2 cursor2 resolvedOnly).1 =
        ((incidentsPage incRows limit2 cursor2 resolvedOnly).1.filter fun r =>
          !(decide (r.status = ("resolved" : String)))) ++
        ((incidentsPage incRows limit2 cursor2 resolvedOnly).1.filter fun r =>
          decide (r.status = ("resolved" : String))) ∧
      ((incidentsPage incRows limit2 cursor2 resolvedOnly).1.filter fun r =>
          decide (r.status = ("resolved" : String))).Pairwise
        (fun a b => b.id < a.id) ∧
      ((incidentsPage incRows limit2 cursor2 resolvedOnly).1.filter fun r =>
          !(decide (r.status = ("resolved" : String)))).Pairwise
        (fun a b => b.started_at < a.started_at ∨
          (b.started_at = a.started_at ∧ b.id < a.id)) ∧
      (∀ i, (incidentsPage incRows limit2 cursor2 resolvedOnly).2 = some i →
        ∃ r, (incidentsPage incRows limit2 cursor2 resolvedOnly).1.getLast? =
          some r ∧ r.id = i ∧ r.status = ("resolved" : String)) ∧
      (∀ c, cursor2 = some c →
        ∀ r ∈ (incidentsPage incRows limit2 cursor2 resolvedOnly).1,
          r.status = ("resolved" : String) → r.id < c)) :=
  ⟨maintenanceWindowsPage_correct mwRows now limit1 cursor1 hmw,
    incidentsPage_correct incRows limit2 cursor2 resolvedOnly hinc⟩

/-- Witness for C9 at concrete inputs: page-size bounds hold on concrete
three-row tables. -/
theorem pagination_by_descending_id_witness :
    (maintenanceWindowsPage
        [⟨1, ("a" : String), none, 0, 50, 0⟩, ⟨2, ("b" : String), none, 0, 60, 0⟩,
          ⟨3, ("c" : String), none, 0, 70, 0⟩] 1000 2 none).1.length ≤ 2 ∧
    (incidentsPage
        [⟨1, ("a" : String), ("resolved" : String), ("minor" : String), none, 10, some 20⟩,
          ⟨2, ("b" : String), ("resolved" : String), ("minor" : String), none, 11, some 21⟩,
          ⟨3, ("c" : String), ("resolved" : String), ("minor" : String), none, 12, some 22⟩]
        2 none false).1.length ≤ 2 :=
  ⟨(pagination_by_descending_id
      [⟨1, ("a" : String), none, 0, 50, 0⟩, ⟨2, ("b" : String), none, 0, 60, 0⟩,
        ⟨3, ("c" : String), none, 0, 70, 0⟩] 1000 2 none
      [⟨1, ("a" : String), ("resolved" : String), ("minor" : String), none, 10, some 20⟩,
        ⟨2, ("b" : String), ("resolved" : String), ("minor" : String), none, 11, some 21⟩,
        ⟨3, ("c" : String), ("resolved" : String), ("minor" : String), none, 12, some 22⟩]
      2 none false (by decide) (by decide)).1.1,
    (pagination_by_descending_id
      [⟨1, ("a" : String), none, 0, 50, 0⟩, ⟨2, ("b" : String), none, 0, 60, 0⟩,
        ⟨3, ("c" : String), none, 0, 70, 0⟩] 1000 2 none
      [⟨1, ("a" : String), ("resolved" : String), ("minor" : String), none, 10, some 20⟩,
        ⟨2, ("b" : String), ("resolved" : String), ("minor" : String), none, 11, some 21⟩,
        ⟨3, ("c" : String), ("resolved" : String), ("minor" : String), none, 12, some 22⟩]
      2 none false (by decide) (by decide)).2.1⟩

/-- Counterexample to C9 as stated: with two active (unresolved)
incidents where the lower id started later, `GET /incidents` returns ids
`[1, 2]` — ordered by `started_at`, not by descending id — so the
returned list is not in strictly descending id order. -/
theorem incidents_order_counterexample :
    ((incidentsPage
        [⟨1, ("a" : String), ("investigating" : String), ("minor" : String), none, 100, none⟩,
          ⟨2, ("b" : String), ("investigating" : String), ("minor" : String), none, 50, none⟩]
        20 none false).1.map fun r => r.id) = [1, 2] ∧
    ¬ ((incidentsPage
        [⟨1, ("a" : String), ("investigating" : String), ("minor" : String), none, 100, none⟩,
          ⟨2, ("b" : String), ("investigating" : String), ("minor" : String), none, 50, none⟩]
        20 none false).1.Pairwise fun a b => b.id < a.id) := by
  constructor
  · decide
  · decide

/-! ## The webhook dispatch pipeline (`apps/worker/src/notify/webhook.ts`) -/

/-- A JavaScript value as it flows through the webhook payload plumbing.
Numbers are modelled as integers: every payload value the claims touch is
integral, and no claim depends on non-integer numerics. -/
inductive JsValue where
  | undef
  | null
  | bool (b : Bool)
  | num (n : Int)
  | str (s : String)
  | arr (items : List JsValue)
  | obj (fields : List (String × JsValue))

/-- String escaping inside `JSON.stringify` output (model of the
platform serializer; control-character escapes are omitted, no claim
depends on them). -/
def jsonEscape (s : String) : String :=
  s.foldl
    (fun acc c =>
      acc ++ (if c = '\"' then "\\\"" else if c = '\\' then "\\\\"
              else String.singleton c)) ""

mutual

/-- Model of the platform `JSON.stringify` on `JsValue` (insertion-order
keys, `undefined` object fields skipped, `undefined` array items as
`null`). -/
def jsonStringify : JsValue → String
  | .undef => ("null")
  | .null => ("null")
  | .bool b => cond b ("true") ("false")
  | .num n => toString n
  | .str s => ("\"") ++ jsonEscape s ++ ("\"")
  | .arr items => ("[") ++ stringifyItems items ++ ("]")
  | .obj fields => ("\x7b") ++ stringifyFields fields ++ ("\x7d")

def stringifyItems : List JsValue → String
  | [] => ("")
  | [v] => jsonStringify v
  | v :: w :: rest => jsonStringify v ++ (",") ++ stringifyItems (w :: rest)

def stringifyFields : List (String × JsValue) → String
  | [] => ("")
  | (k, v) :: rest =>
    match v with
    | .undef => stringifyFields rest
    | v =>
      let restS := stringifyFields rest
      ("\"") ++ jsonEscape k ++ ("\":") ++ jsonStringify v ++
        (if restS = ("" : String) then ("") else (",") ++ restS)

end

/-- JavaScript object-property assignment `out[k] = v` on an
insertion-ordered record. -/
def recordSetS (l : List (String × String)) (k v : String) :
    List (String × String) :=
  if l.any fun p => decide (p.1 = k) then
    l.map fun p => if p.1 = k then (k, v) else p
  else l ++ [(k, v)]

/-- `coerceFlatParams` from `webhook.ts` (lines 64–88): flatten an object
payload to string-valued params; non-objects give `{}`; `null` and
`undefined` entries are skipped; strings pass through; numbers and
booleans are `String(v)`-coerced; anything else is JSON-encoded.  The
`try`/`catch` around `JSON.stringify` guards circular values, which
cannot arise in an inductive model. -/
def coerceFlatParams : JsValue → List (String × String)
  | .obj fields =>
    fields.foldl
      (fun out kv =>
        match kv.2 with
        | .undef => out
        | .null => out
        | .str s => recordSetS out kv.1 s
        | .num n => recordSetS out kv.1 (toString n)
        | .bool b => recordSetS out kv.1 (cond b ("true") ("false"))
        | v => recordSetS out kv.1 (jsonStringify v))
      []
  | _ => []

/-- `recordSet` on `JsValue` records (spread/assignment semantics for the
template-variable record). -/
def recordSet (l : List (String × JsValue)) (k : String) (v : JsValue) :
    List (String × JsValue) :=
  if l.any fun p => decide (p.1 = k) then
    l.map fun p => if p.1 = k then (k, v) else p
  else l ++ [(k, v)]

/-- Character-wise lowercasing, as the `Headers` class normalises keys
(extensionally `String.toLower`, stated structurally so it computes). -/
def strLower (s : String) : String := String.mk (s.data.map Char.toLower)

/-- Character-wise uppercasing (extensionally `String.toUpper`, stated
structurally so it computes): `config.method.toUpperCase()`. -/
def strUpper (s : String) : String := String.mk (s.data.map Char.toUpper)

/-- The fetch `Headers` object: names are normalized to lowercase,
`set` replaces. -/
def headersSet (hs : List (String × String)) (k v : String) :
    List (String × String) :=
  let kl := strLower k
  if hs.any fun p => decide (p.1 = kl) then
    hs.map fun p => if p.1 = kl then (kl, v) else p
  else hs ++ [(kl, v)]

def headersHas (hs : List (String × String)) (k : String) : Bool :=
  hs.any fun p => decide (p.1 = strLower k)

def headersGet (hs : List (String × String)) (k : String) : Option String :=
  (hs.find? fun p => decide (p.1 = strLower k)).map fun p => p.2

/-- The sixteen lowercase hexadecimal digits. -/
def hexDigits : List Char :=
  (("0123456789abcdef") : String).data

/-- `b.toString(16).padStart(2, '0')` for a byte. -/
def hexByte (b : Fin 256) : String :=
  String.mk [hexDigits.getD (b.val / 16) '0', hexDigits.getD (b.val % 16) '0']

/-- `toHex` from `webhook.ts` (lines 35–39): lowercase hex of a byte
array. -/
def toHex (bytes : List (Fin 256)) : String :=
  bytes.foldl (fun acc b => acc ++ hexByte b) ("")

/-- `config.signing` from the channel config. -/
structure WebhookSigningConfig where
  enabled : Bool
  secret_ref : String
deriving DecidableEq, Repr

/-- `WebhookChannelConfig` as consumed by `dispatchWebhookToChannel`. -/
structure WebhookChannelConfig where
  url : String
  method : String
  headers : List (String × String)
  payload_type : String
  timeout_ms : Option Int
  signing : Option WebhookSigningConfig
  message_template : Option String
  payload_template : Option JsValue
  enabled_events : Option (List String)

/-- `WebhookChannel` from `webhook.ts` (lines 8–12). -/
structure WebhookChannel where
  id : Int
  name : String
  config : WebhookChannelConfig

/-- The external collaborators of the dispatcher: the template module
(`./template`, not under src/), WebCrypto HMAC-SHA-256, the WHATWG
URL/search-params pair, and the environment. -/
structure TemplateDeps where
  renderStringTemplate : String → List (String × JsValue) → String
  renderJsonTemplate : JsValue → List (String × JsValue) → JsValue
  defaultMessageForEvent : String → List (String × JsValue) → String

structure DispatchDeps where
  tmpl : TemplateDeps
  hmacSha256 : String → String → List (Fin 256)
  appendQuery : String → List (String × String) → String
  formEncode : List (String × String) → String
  env : List (String × JsValue)

/-- `readEnvSecret` from `webhook.ts` (lines 50–53): the env value must
be a nonempty string. -/
def readEnvSecret (env : List (String × JsValue)) (ref : String) :
    Option String :=
  match env.find? fun p => decide (p.1 = ref) with
  | some (_, .str s) => if 0 < s.length then some s else none
  | _ => none

/-- `shouldSendEvent` from `webhook.ts` (lines 55–62). -/
def shouldSendEvent (config : WebhookChannelConfig) (eventType : String) :
    Bool :=
  if eventType = ("test.ping" : String) then true
  else
    match config.enabled_events with
    | none => true
    | some enabled =>
      if enabled.isEmpty then true else enabled.contains eventType

/-- `buildTemplateVars` from `webhook.ts` (lines 98–153), with the
template module abstract.  Returns `(vars, message, payload)`. -/
def buildTemplateVars (tmpl : TemplateDeps) (channel : WebhookChannel)
    (eventType eventKey : String) (payload : JsValue) (now : Int) :
    List (String × JsValue) × String × JsValue :=
  let payloadRecord :=
    match payload with
    | .obj fields => fields
    | _ => []
  let baseVars :=
    recordSet (recordSet (recordSet (recordSet (recordSet payloadRecord
      ("payload") payload)
      ("channel") (.obj [(("id"), .num channel.id), (("name"), .str channel.name)]))
      ("event") (.str eventType))
      ("event_id") (.str eventKey))
      ("timestamp") (.num now)
  let defaultMessage := tmpl.defaultMessageForEvent eventType baseVars
  let message :=
    match channel.config.message_template with
    | some mt =>
      tmpl.renderStringTemplate mt
        (recordSet (recordSet baseVars ("message") (.str defaultMessage))
          ("default_message") (.str defaultMessage))
    | none => defaultMessage
  let vars :=
    recordSet (recordSet baseVars ("message") (.str message))
      ("default_message") (.str defaultMessage)
  let payloadOut :=
    match channel.config.payload_template with
    | some pt => tmpl.renderJsonTemplate pt vars
    | none =>
      if channel.config.payload_type = ("json" : String) then payload
      else
        .obj [(("event"), .str eventType), (("event_id"), .str eventKey),
          (("timestamp"), .num now), (("message"), .str message)]
  (vars, message, payloadOut)

/-- `method !== 'GET' && method !== 'HEAD'` (`webhook.ts` line 175). -/
def canSendBody (method : String) : Bool :=
  !(decide (method = ("GET" : String)) || decide (method = ("HEAD" : String)))

/-- The constructed outgoing request. -/
structure WebhookRequest where
  url : String
  method : String
  rawBody : String
  headers : List (String × String)
deriving DecidableEq, Repr

/-- The header-template rendering loop of `dispatchWebhookToChannel`
(`webhook.ts` lines 188–191). -/
def renderedHeaders (deps : DispatchDeps) (config : WebhookChannelConfig)
    (vars : List (String × JsValue)) : List (String × String) :=
  config.headers.foldl
    (fun hs kv => headersSet hs kv.1 (deps.tmpl.renderStringTemplate kv.2 vars))
    []

/-- The request-construction block of `dispatchWebhookToChannel`
(`webhook.ts` lines 173–226): render header templates, then build URL,
raw body and content-type according to `payload_type` and the method's
ability to carry a body. -/
def buildWebhookRequest (deps : DispatchDeps) (config : WebhookChannelConfig)
    (vars : List (String × JsValue)) (payload : JsValue) : WebhookRequest :=
  let method := strUpper config.method
  let headers0 := renderedHeaders deps config vars
  if config.payload_type = ("param" : String) then
    ⟨deps.appendQuery config.url (coerceFlatParams payload), method, (""), headers0⟩
  else if config.payload_type = ("x-www-form-urlencoded" : String) then
    if canSendBody method then
      ⟨config.url, method, deps.formEncode (coerceFlatParams payload),
        if headersHas headers0 ("content-type") then headers0
        else headersSet headers0 ("Content-Type") ("application/x-www-form-urlencoded")⟩
    else
      ⟨deps.appendQuery config.url (coerceFlatParams payload), method, (""), headers0⟩
  else
    if canSendBody method then
      ⟨config.url, method,
        jsonStringify (match payload with | .undef => .null | p => p),
        if headersHas headers0 ("content-type") then headers0
        else headersSet headers0 ("Content-Type") ("application/json")⟩
    else ⟨config.url, method, (""), headers0⟩

/-- The idempotency ledger: the set of `(event_key, channel_id)` pairs
for which a `notification_deliveries` row exists. -/
abbrev Ledger := List (String × Int)

/-- Modelled from the spec: `claimNotificationDelivery` (imported from
the worker's notify dedupe module, which is not under src/) claims a
delivery by inserting `(event_key, channel_id)` with status `pending`;
the unique constraint on the pair makes the insert, and hence the claim,
fail exactly when a row for the pair already exists. -/
def claimNotificationDelivery (led : Ledger) (eventKey : String)
    (channelId : Int) : Bool × Ledger :=
  if (eventKey, channelId) ∈ led then (false, led)
  else (true, (eventKey, channelId) :: led)

/-- The externally observable actions of one dispatch: the delivery-row
claim, the outbound HTTP request, and the delivery finalization
(`finalizeNotificationDelivery`, also from the dedupe module). -/
inductive Effect where
  | claim (eventKey : String) (channelId : Int) (ok : Bool)
  | httpSend (url method : String) (headers : List (String × String))
      (body : Option String)
  | finalize (eventKey : String) (channelId : Int) (status : String)
      (httpStatus : Option Int) (error : Option String)
deriving DecidableEq, Repr

/-- The outcome of the `fetch` call: a response status, an abort
(timeout), or a transport error. -/
inductive FetchOutcome where
  | response (status : Int)
  | abortError
  | failure (message : String)
deriving DecidableEq, Repr

inductive DispatchResult where
  | sent
  | skipped
deriving DecidableEq, Repr

/-- The outcome classification of `webhook.ts` lines 264–277:
`res.ok` (status in `[200, 300)`) → success; other status → `HTTP <code>`;
abort → timeout message; transport error → its message. -/
def finalizeOutcome (timeoutMs : Int) :
    FetchOutcome → String × Option Int × Option String
  | .response st =>
    if 200 ≤ st ∧ st < 300 then (("success"), some st, none)
    else (("failed"), some st, some (("HTTP ") ++ toString st))
  | .abortError =>
    (("failed"), none, some (("Timeout after ") ++ toString timeoutMs ++ ("ms")))
  | .failure msg => (("failed"), none, some msg)

/-- One dispatch invocation: the channel, event and payload, plus the
`fetch` outcome the network would produce for it. -/
structure DispatchArgs where
  channel : WebhookChannel
  eventType : String
  eventKey : String
  payload : JsValue
  now : Int
  fetchOutcome : FetchOutcome

/-- `dispatchWebhookToChannel` from `webhook.ts` (lines 155–284) as a
state transformer on the delivery ledger, also returning the trace of
externally observable effects.  The `try`/`catch` around template
rendering is dead in the model (the abstract template functions are
total). -/
def dispatchWebhookToChannel (deps : DispatchDeps) (led : Ledger)
    (args : DispatchArgs) : DispatchResult × Ledger × List Effect :=
  if ¬ shouldSendEvent args.channel.config args.eventType then
    (.skipped, led, [])
  else
    let claim := claimNotificationDelivery led args.eventKey args.channel.id
    if ¬ claim.1 then
      (.skipped, claim.2, [.claim args.eventKey args.channel.id false])
    else
      let config := args.channel.config
      let built := buildTemplateVars deps.tmpl args.channel args.eventType
        args.eventKey args.payload args.now
      let req := buildWebhookRequest deps config built.1 built.2.2
      let timeoutMs := config.timeout_ms.getD 5000
      let send : List (String × String) → List Effect := fun headers =>
        [.claim args.eventKey args.channel.id true,
         .httpSend req.url req.method headers
           (if canSendBody req.method && !(decide (req.rawBody = ("" : String)))
            then some req.rawBody else none),
         .finalize args.eventKey args.channel.id
           (finalizeOutcome timeoutMs args.fetchOutcome).1
           (finalizeOutcome timeoutMs args.fetchOutcome).2.1
           (finalizeOutcome timeoutMs args.fetchOutcome).2.2]
      match config.signing with
      | some s =>
        if s.enabled then
          match readEnvSecret deps.env s.secret_ref with
          | none =>
            (.sent, claim.2,
              [.claim args.eventKey args.channel.id true,
               .finalize args.eventKey args.channel.id ("failed") none
                 (some (("Signing secret not configured: ") ++ s.secret_ref))])
          | some secret =>
            let sig := toHex (deps.hmacSha256 secret
              (toString args.now ++ (".") ++ req.rawBody))
            (.sent, claim.2,
              send (headersSet
                (headersSet req.headers ("X-Uptimer-Timestamp") (toString args.now))
                ("X-Uptimer-Signature") (("sha256=") ++ sig)))
        else (.sent, claim.2, send req.headers)
      | none => (.sent, claim.2, send req.headers)

/-- A sequence of dispatches threading the ledger, with each call's
effect trace. -/
def runDispatches (deps : DispatchDeps) :
    Ledger → List DispatchArgs → Ledger × List (DispatchArgs × List Effect)
  | led, [] => (led, [])
  | led, a :: rest =>
    let r := dispatchWebhookToChannel deps led a
    let next := runDispatches deps r.2.1 rest
    (next.1, (a, r.2.2) :: next.2)

/-- Count of successful claim effects for a pair in a trace. -/
def claimSuccessCount (p : String × Int) (effs : List Effect) : Nat :=
  (effs.filter fun e =>
    match e with
    | .claim k c ok => ok && decide (k = p.1) && decide (c = p.2)
    | _ => false).length

/-- Count of HTTP requests in a trace. -/
def httpSendCount (effs : List Effect) : Nat :=
  (effs.filter fun e =>
    match e with
    | .httpSend _ _ _ _ => true
    | _ => false).length

/-- Count of finalizations in a trace. -/
def finalizeCount (effs : List Effect) : Nat :=
  (effs.filter fun e =>
    match e with
    | .finalize _ _ _ _ _ => true
    | _ => false).length

/-- Total successful claims for a pair over a dispatch sequence. -/
def pairInitiations (deps : DispatchDeps) (led : Ledger)
    (calls : List DispatchArgs) (p : String × Int) : Nat :=
  ((runDispatches deps led calls).2.map fun ce => claimSuccessCount p ce.2).sum

/-! ## Lemmas about headers and hex encoding -/

theorem find?_map_replace (hs : List (String × String)) (kl v : String)
    (h : (hs.any fun p => decide (p.1 = kl)) = true) :
    ((hs.map fun p => if p.1 = kl then (kl, v) else p).find?
      fun p => decide (p.1 = kl)) = some (kl, v) := by
  induction hs with
  | nil => simp at h
  | cons p ps ih =>
    by_cases hp : p.1 = kl
    · rw [List.map_cons, if_pos hp]
      exact List.find?_cons_of_pos _ (by simp)
    · have h' : (ps.any fun p => decide (p.1 = kl)) = true := by
        simpa [hp] using h
      rw [List.map_cons, if_neg hp, List.find?_cons_of_neg _ (by simpa using hp)]
      exact ih h'

theorem bnot_eq_true {b : Bool} (h : ¬ b = true) : b = false := by
  cases b
  · rfl
  · exact absurd rfl h

theorem find?_append_single (hs : List (String × String)) (kl v : String)
    (h : (hs.any fun p => decide (p.1 = kl)) = false) :
    ((hs ++ [(kl, v)]).find? fun p => decide (p.1 = kl)) = some (kl, v) := by
  rw [List.find?_append]
  have h1 : (hs.find? fun p => decide (p.1 = kl)) = none := by
    rw [List.find?_eq_none]
    intro p hp hcon
    have h2 : (hs.any fun p => decide (p.1 = kl)) = true :=
      List.any_eq_true.mpr ⟨p, hp, hcon⟩
    rw [h] at h2
    exact absurd h2 (by simp)
  rw [h1]
  simp

theorem headersGet_set_self (hs : List (String × String)) (k v : String) :
    headersGet (headersSet hs k v) k = some v := by
  unfold headersGet headersSet
  by_cases hany : (hs.any fun p => decide (p.1 = strLower k)) = true
  · rw [if_pos hany, find?_map_replace hs (strLower k) v hany]
    rfl
  · rw [if_neg hany, find?_append_single hs (strLower k) v (bnot_eq_true hany)]
    rfl

theorem find?_map_replace_ne (hs : List (String × String)) (kl v k2l : String)
    (h : k2l ≠ kl) :
    ((hs.map fun p => if p.1 = kl then (kl, v) else p).find?
      fun p => decide (p.1 = k2l)) =
    (hs.find? fun p => decide (p.1 = k2l)) := by
  induction hs with
  | nil => rfl
  | cons p ps ih =>
    by_cases hp : p.1 = kl
    · have h1 : (decide ((((kl, v)) : String × String).1 = k2l)) = false := by
        simp only [decide_eq_false_iff_not]
        exact fun hc => h hc.symm
      have h2 : (decide (p.1 = k2l)) = false := by
        simp only [decide_eq_false_iff_not, hp]
        exact fun hc => h hc.symm
      rw [List.map_cons, if_pos hp]
      simp only [List.find?_cons, h1, h2]
      exact ih
    · rw [List.map_cons, if_neg hp]
      simp only [List.find?_cons]
      cases hdec : decide (p.1 = k2l)
      · exact ih
      · rfl

theorem headersGet_set_ne (hs : List (String × String)) (k v k2 : String)
    (h : strLower k2 ≠ strLower k) :
    headersGet (headersSet hs k v) k2 = headersGet hs k2 := by
  unfold headersGet headersSet
  by_cases hany : (hs.any fun p => decide (p.1 = strLower k)) = true
  · rw [if_pos hany, find?_map_replace_ne hs (strLower k) v (strLower k2) h]
  · rw [if_neg hany]
    congr 1
    rw [List.find?_append]
    have h2 : (([(strLower k, v)] : List (String × String)).find?
        fun p => decide (p.1 = strLower k2)) = none := by
      refine List.find?_eq_none.mpr ?_
      intro p hp
      rcases List.mem_singleton.mp hp with rfl
      simp only [decide_eq_true_eq]
      exact fun hc => h hc.symm
    rw [h2]
    cases hfind : (hs.find? fun p => decide (p.1 = strLower k2)) <;> rfl

theorem mem_hexDigits_getD (n : Nat) : hexDigits.getD n '0' ∈ hexDigits := by
  by_cases h : n < hexDigits.length
  · rw [List.getD_eq_getElem _ _ h]
    exact List.getElem_mem h
  · rw [List.getD_eq_default _ _ (by omega)]
    decide

theorem hexByte_chars (b : Fin 256) : ∀ c ∈ (hexByte b).toList, c ∈ hexDigits := by
  intro c hc
  unfold hexByte at hc
  rcases List.mem_pair.mp hc with rfl | rfl
  · exact mem_hexDigits_getD _
  · exact mem_hexDigits_getD _

theorem toHex_go_chars (bytes : List (Fin 256)) :
    ∀ (acc : String), (∀ c ∈ acc.toList, c ∈ hexDigits) →
      ∀ c ∈ (bytes.foldl (fun acc b => acc ++ hexByte b) acc).toList,
        c ∈ hexDigits := by
  induction bytes with
  | nil => exact fun acc hacc => hacc
  | cons b bs ih =>
    intro acc hacc
    rw [List.foldl_cons]
    refine ih (acc ++ hexByte b) ?_
    intro c hc
    rw [show (acc ++ hexByte b).toList = acc.toList ++ (hexByte b).toList from rfl,
      List.mem_append] at hc
    rcases hc with hc | hc
    · exact hacc c hc
    · exact hexByte_chars b c hc

/-- The hex digest written into the signature header consists only of
lowercase hexadecimal characters. -/
theorem toHex_lowercase_hex (bytes : List (Fin 256)) :
    ∀ c ∈ (toHex bytes).toList, c ∈ hexDigits := by
  unfold toHex
  exact toHex_go_chars bytes ("") (by intro c hc; simp [String.toList] at hc)

/-! ## Effect-trace structure of a dispatch -/

theorem dispatch_shape (deps : DispatchDeps) (led : Ledger) (args : DispatchArgs) :
    (shouldSendEvent args.channel.config args.eventType = false ∧
      dispatchWebhookToChannel deps led args = (.skipped, led, [])) ∨
    ((args.eventKey, args.channel.id) ∈ led ∧
      shouldSendEvent args.channel.config args.eventType = true ∧
      dispatchWebhookToChannel deps led args =
        (.skipped, led, [.claim args.eventKey args.channel.id false])) ∨
    ((args.eventKey, args.channel.id) ∉ led ∧
      shouldSendEvent args.channel.config args.eventType = true ∧
      (dispatchWebhookToChannel deps led args).1 = .sent ∧
      (dispatchWebhookToChannel deps led args).2.1 =
        (args.eventKey, args.channel.id) :: led ∧
      ∃ tail, (dispatchWebhookToChannel deps led args).2.2 =
          .claim args.eventKey args.channel.id true :: tail ∧
        (∀ e ∈ tail, ∀ k c ok, e ≠ Effect.claim k c ok) ∧
        httpSendCount tail ≤ 1) := by
  by_cases hsend : shouldSendEvent args.channel.config args.eventType = true
  · by_cases hpair : (args.eventKey, args.channel.id) ∈ led
    · refine Or.inr (Or.inl ⟨hpair, hsend, ?_⟩)
      unfold dispatchWebhookToChannel
      rw [if_neg (not_not_intro hsend)]
      simp only [claimNotificationDelivery, if_pos hpair]
      rfl
    · refine Or.inr (Or.inr ⟨hpair, hsend, ?_⟩)
      unfold dispatchWebhookToChannel
      rw [if_neg (not_not_intro hsend)]
      simp only [claimNotificationDelivery, if_neg hpair]
      rw [if_neg (by simp)]
      cases hsig : args.channel.config.signing with
      | none =>
        refine ⟨rfl, rfl, ?_⟩
        refine ⟨_, rfl, ?_, ?_⟩
        · intro e he k c ok
          rcases List.mem_cons.mp he with rfl | he2
          · simp
          · rcases List.mem_singleton.mp he2 with rfl
            simp
        · simp [httpSendCount, List.filter]
      | some s =>
        dsimp only
        by_cases hen : s.enabled = true
        · rw [if_pos hen]
          cases hsec : readEnvSecret deps.env s.secret_ref with
          | none =>
            refine ⟨rfl, rfl, ?_⟩
            refine ⟨_, rfl, ?_, ?_⟩
            · intro e he k c ok
              rcases List.mem_singleton.mp he with rfl
              simp
            · simp [httpSendCount, List.filter]
          | some secret =>
            refine ⟨rfl, rfl, ?_⟩
            refine ⟨_, rfl, ?_, ?_⟩
            · intro e he k c ok
              rcases List.mem_cons.mp he with rfl | he2
              · simp
              · rcases List.mem_singleton.mp he2 with rfl
                simp
            · simp [httpSendCount, List.filter]
        · rw [if_neg hen]
          refine ⟨rfl, rfl, ?_⟩
          refine ⟨_, rfl, ?_, ?_⟩
          · intro e he k c ok
            rcases List.mem_cons.mp he with rfl | he2
            · simp
            · rcases List.mem_singleton.mp he2 with rfl
              simp
          · simp [httpSendCount, List.filter]
  · refine Or.inl ⟨bnot_eq_true hsend, ?_⟩
    unfold dispatchWebhookToChannel
    rw [if_pos hsend]

theorem claimSuccessCount_cons_true (p : String × Int) (ek : String) (cid : Int)
    (tail : List Effect)
    (htail : ∀ e ∈ tail, ∀ k c ok, e ≠ Effect.claim k c ok) :
    claimSuccessCount p (.claim ek cid true :: tail) =
      if p = (ek, cid) then 1 else 0 := by
  have hfil : (tail.filter fun e =>
      match e with
      | Effect.claim k c ok => ok && decide (k = p.1) && decide (c = p.2)
      | _ => false) = [] := by
    rw [List.filter_eq_nil_iff]
    intro e he
    cases e with
    | claim k c ok => exact absurd rfl (htail _ he k c ok)
    | httpSend _ _ _ _ => simp
    | finalize _ _ _ _ _ => simp
  unfold claimSuccessCount
  rw [List.filter_cons, hfil]
  by_cases hp : p = (ek, cid)
  · rw [if_pos (by simp [hp]), if_pos hp]
    rfl
  · rw [if_neg (by
      simp only [Bool.true_and, Bool.and_eq_true, decide_eq_true_eq]
      intro hc
      exact hp (Prod.ext hc.1.symm hc.2.symm)), if_neg hp]
    rfl

theorem claimSuccessCount_notail (p : String × Int) (tail : List Effect)
    (htail : ∀ e ∈ tail, ∀ k c ok, e ≠ Effect.claim k c ok) :
    claimSuccessCount p tail = 0 := by
  unfold claimSuccessCount
  rw [List.filter_eq_nil_iff.mpr ?_]
  · rfl
  · intro e he
    cases e with
    | claim k c ok => exact absurd rfl (htail _ he k c ok)
    | httpSend _ _ _ _ => simp
    | finalize _ _ _ _ _ => simp

theorem httpSendCount_cons_claim (ek : String) (cid : Int) (ok : Bool)
    (tail : List Effect) :
    httpSendCount (.claim ek cid ok :: tail) = httpSendCount tail := by
  unfold httpSendCount
  rw [List.filter_cons, if_neg (by simp)]

/-- Per-call claim/ledger bookkeeping facts. -/
theorem dispatch_call_facts (deps : DispatchDeps) (led : Ledger)
    (args : DispatchArgs) (p : String × Int) :
    claimSuccessCount p (dispatchWebhookToChannel deps led args).2.2 ≤ 1 ∧
    (p ∈ led → claimSuccessCount p (dispatchWebhookToChannel deps led args).2.2 = 0 ∧
      p ∈ (dispatchWebhookToChannel deps led args).2.1) ∧
    (p ∉ led → (p ∈ (dispatchWebhookToChannel deps led args).2.1 ↔
      claimSuccessCount p (dispatchWebhookToChannel deps led args).2.2 = 1)) := by
  rcases dispatch_shape deps led args with ⟨_, heq⟩ | ⟨hpair, _, heq⟩ |
    ⟨hpair, _, _, hled, tail, heff, htail, _⟩
  · rw [heq]
    refine ⟨by simp [claimSuccessCount], fun hp => ⟨by simp [claimSuccessCount], hp⟩, ?_⟩
    intro hp
    constructor
    · intro hmem
      exact absurd hmem hp
    · intro hc
      simp [claimSuccessCount] at hc
  · rw [heq]
    have hz : claimSuccessCount p
        [Effect.claim args.eventKey args.channel.id false] = 0 := by
      simp [claimSuccessCount]
    refine ⟨?_, fun hp => ⟨hz, hp⟩, ?_⟩
    · have h0 : claimSuccessCount p ((DispatchResult.skipped, led,
          [Effect.claim args.eventKey args.channel.id false]) :
            DispatchResult × Ledger × List Effect).2.2 = 0 := hz
      omega
    intro hp
    constructor
    · intro hmem
      exact absurd hmem hp
    · intro hc
      rw [hz] at hc
      exact absurd hc (by omega)
  · rw [heff, hled]
    rw [claimSuccessCount_cons_true p args.eventKey args.channel.id tail htail]
    by_cases hp : p = (args.eventKey, args.channel.id)
    · rw [if_pos hp]
      refine ⟨by omega, ?_, ?_⟩
      · intro hmem
        exact absurd (hp ▸ hmem) hpair
      · intro _
        constructor
        · intro _
          rfl
        · intro _
          rw [hp]
          exact List.mem_cons_self _ _
    · rw [if_neg hp]
      refine ⟨by omega, ?_, ?_⟩
      · intro hmem
        exact ⟨rfl, List.mem_cons_of_mem _ hmem⟩
      · intro hmem
        constructor
        · intro hin
          rcases List.mem_cons.mp hin with h | h
          · exact absurd h hp
          · exact absurd h hmem
        · intro hc
          exact absurd hc (by omega)

theorem pairInitiations_cons (deps : DispatchDeps) (led : Ledger)
    (a : DispatchArgs) (rest : List DispatchArgs) (p : String × Int) :
    pairInitiations deps led (a :: rest) p =
      claimSuccessCount p (dispatchWebhookToChannel deps led a).2.2 +
        pairInitiations deps (dispatchWebhookToChannel deps led a).2.1 rest p := by
  simp [pairInitiations, runDispatches]

theorem pairInitiations_le (deps : DispatchDeps) (p : String × Int) :
    ∀ (calls : List DispatchArgs) (led : Ledger),
      pairInitiations deps led calls p ≤ (if p ∈ led then 0 else 1)
  | [], led => by
    simp [pairInitiations, runDispatches]
  | a :: rest, led => by
    rw [pairInitiations_cons]
    obtain ⟨hle1, hin, hnin⟩ := dispatch_call_facts deps led a p
    by_cases hp : p ∈ led
    · rw [if_pos hp]
      have h3 := pairInitiations_le deps p rest
        (dispatchWebhookToChannel deps led a).2.1
      rw [if_pos (hin hp).2] at h3
      have h1 := (hin hp).1
      omega
    · rw [if_neg hp]
      have hiff := hnin hp
      by_cases hmem : p ∈ (dispatchWebhookToChannel deps led a).2.1
      · have hc1 := hiff.mp hmem
        have h3 := pairInitiations_le deps p rest
          (dispatchWebhookToChannel deps led a).2.1
        rw [if_pos hmem] at h3
        omega
      · have hc0 : claimSuccessCount p
            (dispatchWebhookToChannel deps led a).2.2 = 0 := by
          rcases Nat.lt_or_ge (claimSuccessCount p
            (dispatchWebhookToChannel deps led a).2.2) 1 with h | h
          · omega
          · exact absurd (hiff.mpr (by omega)) hmem
        have h3 := pairInitiations_le deps p rest
          (dispatchWebhookToChannel deps led a).2.1
        rw [if_neg hmem] at h3
        omega

/-! ## Concrete fixtures for witnesses and counterexamples -/

/-- Identity-style template functions for concrete runs (templates are
irrelevant to the claims under test). -/
def fixtureTemplateDeps : TemplateDeps :=
  ⟨fun s _ => s, fun v _ => v, fun _ _ => ("ok")⟩

/-- `k1=v1&k2=v2` serialization, modelling `URLSearchParams.toString` for
params whose characters serialize to themselves. -/
def joinPairsAmp : List (String × String) → String
  | [] => ("")
  | [p] => p.1 ++ ("=") ++ p.2
  | p :: q :: rest => p.1 ++ ("=") ++ p.2 ++ ("&") ++ joinPairsAmp (q :: rest)

/-- Modelled from the WHATWG URL: append search params to a URL
(percent-encoding omitted; the concrete inputs below only use characters
that encode to themselves). -/
def fixtureAppendQuery (url : String) (params : List (String × String)) :
    String :=
  if params.isEmpty then url
  else url ++ (if url.data.contains '?' then ("&") else ("?")) ++ joinPairsAmp params

def fixtureDeps : DispatchDeps :=
  ⟨fixtureTemplateDeps, fun _ _ => [⟨171, by omega⟩, ⟨1, by omega⟩],
    fixtureAppendQuery, joinPairsAmp, [(("HOOK_SECRET"), .str ("s3cret"))]⟩

def fixtureJsonGetConfig : WebhookChannelConfig :=
  ⟨("https://example.com/hook"), ("get"), [], ("json"), none, none, none, none, none⟩

def fixtureParamConfig : WebhookChannelConfig :=
  ⟨("https://example.com/hook"), ("POST"), [], ("param"), none, none, none, none, none⟩

def fixtureSignedConfig : WebhookChannelConfig :=
  ⟨("https://example.com/hook"), ("POST"), [], ("json"), none,
    some ⟨true, ("HOOK_SECRET")⟩, none, none, none⟩

def fixtureMissingSecretConfig : WebhookChannelConfig :=
  ⟨("https://example.com/hook"), ("POST"), [], ("json"), none,
    some ⟨true, ("NOPE")⟩, none, none, none⟩

def fixtureArgsFor (config : WebhookChannelConfig) : DispatchArgs :=
  ⟨⟨7, ("chan"), config⟩, ("monitor.down"), ("monitor.down:1:2"),
    .obj [(("a"), .num 1)], 1700000000, .response 200⟩

/-! ## Claims C1, C5, C7, C8 -/

/-- C1: at most one delivery is ever initiated per `(event_key,
channel_id)` pair.  If a ledger row for the pair exists, the dispatch
returns `skipped` with no HTTP request and no finalization; an HTTP
request only ever happens under a successful claim of the call's own
pair; and over any dispatch sequence a pair is successfully claimed at
most once (zero times if a row already exists). -/
theorem webhook_at_most_once_per_pair (deps : DispatchDeps)
    (led led0 : Ledger) (args : DispatchArgs) (calls : List DispatchArgs)
    (p : String × Int) :
    ((args.eventKey, args.channel.id) ∈ led →
      (dispatchWebhookToChannel deps led args).1 = .skipped ∧
      (dispatchWebhookToChannel deps led args).2.1 = led ∧
      httpSendCount (dispatchWebhookToChannel deps led args).2.2 = 0 ∧
      finalizeCount (dispatchWebhookToChannel deps led args).2.2 = 0) ∧
    httpSendCount (dispatchWebhookToChannel deps led args).2.2 ≤
      claimSuccessCount (args.eventKey, args.channel.id)
        (dispatchWebhookToChannel deps led args).2.2 ∧
    pairInitiations deps led0 calls p ≤ (if p ∈ led0 then 0 else 1) := by
  refine ⟨?_, ?_, pairInitiations_le deps p calls led0⟩
  · intro hpair
    rcases dispatch_shape deps led args with ⟨_, heq⟩ | ⟨_, _, heq⟩ |
      ⟨hnot, _, _, _, _⟩
    · rw [heq]
      exact ⟨rfl, rfl, rfl, rfl⟩
    · rw [heq]
      refine ⟨rfl, rfl, ?_, ?_⟩ <;> simp [httpSendCount, finalizeCount]
    · exact absurd hpair hnot
  · rcases dispatch_shape deps led args with ⟨_, heq⟩ | ⟨_, _, heq⟩ |
      ⟨_, _, _, _, tail, heff, htail, hhttp⟩
    · rw [heq]
      simp [httpSendCount, claimSuccessCount]
    · rw [heq]
      simp [httpSendCount, claimSuccessCount]
    · rw [heff, claimSuccessCount_cons_true _ _ _ _ htail, if_pos rfl,
        httpSendCount_cons_claim]
      exact hhttp

/-- Witness for C1 at a concrete input: with the pair already in the
ledger, the dispatch is skipped, the ledger is unchanged, and no HTTP
request or finalization happens. -/
theorem webhook_at_most_once_per_pair_witness :
    (dispatchWebhookToChannel fixtureDeps [(("monitor.down:1:2"), 7)]
      (fixtureArgsFor fixtureJsonGetConfig)).1 = .skipped ∧
    (dispatchWebhookToChannel fixtureDeps [(("monitor.down:1:2"), 7)]
      (fixtureArgsFor fixtureJsonGetConfig)).2.1 = [(("monitor.down:1:2"), 7)] ∧
    httpSendCount (dispatchWebhookToChannel fixtureDeps
      [(("monitor.down:1:2"), 7)] (fixtureArgsFor fixtureJsonGetConfig)).2.2 = 0 ∧
    finalizeCount (dispatchWebhookToChannel fixtureDeps
      [(("monitor.down:1:2"), 7)] (fixtureArgsFor fixtureJsonGetConfig)).2.2 = 0 :=
  (webhook_at_most_once_per_pair fixtureDeps [(("monitor.down:1:2"), 7)] []
    (fixtureArgsFor fixtureJsonGetConfig) [] (("monitor.down:1:2"), 7)).1
    (by decide)

/-- C7: with signing enabled but the referenced secret absent from the
environment (or empty), the dispatch finalizes the delivery as failed
with a reason naming the secret_ref, and sends no HTTP request. -/
theorem webhook_missing_secret_fails (deps : DispatchDeps) (led : Ledger)
    (args : DispatchArgs) (s : WebhookSigningConfig)
    (hsend : shouldSendEvent args.channel.config args.eventType = true)
    (hpair : (args.eventKey, args.channel.id) ∉ led)
    (hsig : args.channel.config.signing = some s)
    (hen : s.enabled = true)
    (hsec : readEnvSecret deps.env s.secret_ref = none) :
    dispatchWebhookToChannel deps led args =
      (.sent, (args.eventKey, args.channel.id) :: led,
        [.claim args.eventKey args.channel.id true,
         .finalize args.eventKey args.channel.id ("failed") none
           (some (("Signing secret not configured: ") ++ s.secret_ref))]) := by
  unfold dispatchWebhookToChannel
  rw [if_neg (not_not_intro hsend)]
  simp only [claimNotificationDelivery, if_neg hpair]
  rw [if_neg (by simp)]
  rw [hsig]
  dsimp only
  rw [if_pos hen, hsec]

/-- Witness for C7 at a concrete input. -/
theorem webhook_missing_secret_fails_witness :
    dispatchWebhookToChannel fixtureDeps [] (fixtureArgsFor fixtureMissingSecretConfig) =
      (.sent, [(("monitor.down:1:2"), 7)],
        [.claim ("monitor.down:1:2") 7 true,
         .finalize ("monitor.down:1:2") 7 ("failed") none
           (some (("Signing secret not configured: ") ++ ("NOPE")))]) :=
  webhook_missing_secret_fails fixtureDeps [] (fixtureArgsFor fixtureMissingSecretConfig)
    ⟨true, ("NOPE")⟩ (by decide) (by decide) rfl rfl rfl

/-- The template-rendered payload of a dispatch (shorthand over
`buildTemplateVars`). -/
def builtPayload (deps : DispatchDeps) (args : DispatchArgs) : JsValue :=
  (buildTemplateVars deps.tmpl args.channel args.eventType args.eventKey
    args.payload args.now).2.2

/-- The template variables of a dispatch. -/
def builtVars (deps : DispatchDeps) (args : DispatchArgs) :
    List (String × JsValue) :=
  (buildTemplateVars deps.tmpl args.channel args.eventType args.eventKey
    args.payload args.now).1

/-- The outgoing request of a dispatch before signing. -/
def builtRequest (deps : DispatchDeps) (args : DispatchArgs) : WebhookRequest :=
  buildWebhookRequest deps args.channel.config (builtVars deps args)
    (builtPayload deps args)

/-- The signed string `<timestamp>.<raw_body>`. -/
def signedMessage (deps : DispatchDeps) (args : DispatchArgs) : String :=
  toString args.now ++ (".") ++ (builtRequest deps args).rawBody

/-- The headers after the two signing `headers.set` calls
(`webhook.ts` lines 241–242). -/
def signedHeaders (deps : DispatchDeps) (args : DispatchArgs)
    (secret : String) : List (String × String) :=
  headersSet
    (headersSet (builtRequest deps args).headers ("X-Uptimer-Timestamp")
      (toString args.now))
    ("X-Uptimer-Signature")
    (("sha256=") ++ toHex (deps.hmacSha256 secret (signedMessage deps args)))

/-- The request body passed to `fetch`: only when the method can carry a
body and the raw body is nonempty (`webhook.ts` lines 257–259). -/
def bodyOpt (req : WebhookRequest) : Option String :=
  if canSendBody req.method && !(decide (req.rawBody = ("" : String)))
  then some req.rawBody else none

/-- C5: with signing enabled and a resolvable secret, the outgoing
request carries `X-Uptimer-Timestamp` set to the unix-seconds timestamp
and `X-Uptimer-Signature` set to `sha256=` followed by the hex digest of
HMAC-SHA256 over `<timestamp>.<raw_body>` under the resolved secret, and
that hex digest consists only of lowercase hexadecimal characters. -/
theorem webhook_signing_headers (deps : DispatchDeps) (led : Ledger)
    (args : DispatchArgs) (s : WebhookSigningConfig) (secret : String)
    (hsend : shouldSendEvent args.channel.config args.eventType = true)
    (hpair : (args.eventKey, args.channel.id) ∉ led)
    (hsig : args.channel.config.signing = some s)
    (hen : s.enabled = true)
    (hsec : readEnvSecret deps.env s.secret_ref = some secret) :
    dispatchWebhookToChannel deps led args =
      (.sent, (args.eventKey, args.channel.id) :: led,
        [.claim args.eventKey args.channel.id true,
         .httpSend (builtRequest deps args).url (builtRequest deps args).method
           (signedHeaders deps args secret) (bodyOpt (builtRequest deps args)),
         .finalize args.eventKey args.channel.id
           (finalizeOutcome (args.channel.config.timeout_ms.getD 5000)
             args.fetchOutcome).1
           (finalizeOutcome (args.channel.config.timeout_ms.getD 5000)
             args.fetchOutcome).2.1
           (finalizeOutcome (args.channel.config.timeout_ms.getD 5000)
             args.fetchOutcome).2.2]) ∧
    headersGet (signedHeaders deps args secret) ("X-Uptimer-Timestamp") =
      some (toString args.now) ∧
    headersGet (signedHeaders deps args secret) ("X-Uptimer-Signature") =
      some (("sha256=") ++
        toHex (deps.hmacSha256 secret (signedMessage deps args))) ∧
    ∀ c ∈ (toHex (deps.hmacSha256 secret (signedMessage deps args))).toList,
      c ∈ hexDigits := by
  refine ⟨?_, ?_, ?_, toHex_lowercase_hex _⟩
  · unfold dispatchWebhookToChannel
    rw [if_neg (not_not_intro hsend)]
    simp only [claimNotificationDelivery, if_neg hpair]
    rw [if_neg (by simp)]
    rw [hsig]
    dsimp only
    rw [if_pos hen, hsec]
    rfl
  · unfold signedHeaders
    rw [headersGet_set_ne _ _ _ _ (by decide), headersGet_set_self]
  · unfold signedHeaders
    rw [headersGet_set_self]

/-- Witness for C5 at a concrete input: the two signing headers carry the
timestamp and the `sha256=`-prefixed digest. -/
theorem webhook_signing_headers_witness :
    headersGet (signedHeaders fixtureDeps (fixtureArgsFor fixtureSignedConfig)
      ("s3cret")) ("X-Uptimer-Timestamp") = some (toString (1700000000 : Int)) ∧
    headersGet (signedHeaders fixtureDeps (fixtureArgsFor fixtureSignedConfig)
      ("s3cret")) ("X-Uptimer-Signature") =
      some (("sha256=") ++ toHex (fixtureDeps.hmacSha256 ("s3cret")
        (signedMessage fixtureDeps (fixtureArgsFor fixtureSignedConfig)))) :=
  ⟨(webhook_signing_headers fixtureDeps [] (fixtureArgsFor fixtureSignedConfig)
      ⟨true, ("HOOK_SECRET")⟩ ("s3cret") (by decide) (by decide) rfl rfl rfl).2.1,
    (webhook_signing_headers fixtureDeps [] (fixtureArgsFor fixtureSignedConfig)
      ⟨true, ("HOOK_SECRET")⟩ ("s3cret") (by decide) (by decide) rfl rfl rfl).2.2.1⟩

/-- C8 (amended): request construction by `payload_type`.
`param` appends the string-coerced params to the URL and leaves the body
empty; `x-www-form-urlencoded` with a body-capable method sends the
form-encoded params as the body and sets `Content-Type:
application/x-www-form-urlencoded` when no content-type header was
configured, and on GET/HEAD falls back to query parameters;
`json` (and any other value, the default branch) with a body-capable
method sends the JSON-serialized payload as the body and sets
`Content-Type: application/json` when no content-type header was
configured, but on GET/HEAD the request keeps the original URL with an
empty body — the JSON payload does not fall back to query parameters. -/
theorem webhook_request_construction (deps : DispatchDeps)
    (config : WebhookChannelConfig) (vars : List (String × JsValue))
    (payload : JsValue) :
    (config.payload_type = ("param" : String) →
      (buildWebhookRequest deps config vars payload).url =
        deps.appendQuery config.url (coerceFlatParams payload) ∧
      (buildWebhookRequest deps config vars payload).rawBody = ("") ∧
      (buildWebhookRequest deps config vars payload).headers =
        renderedHeaders deps config vars) ∧
    (config.payload_type = ("x-www-form-urlencoded" : String) →
      canSendBody (strUpper config.method) = true →
      (buildWebhookRequest deps config vars payload).url = config.url ∧
      (buildWebhookRequest deps config vars payload).rawBody =
        deps.formEncode (coerceFlatParams payload) ∧
      (headersHas (renderedHeaders deps config vars) ("content-type") = false →
        headersGet (buildWebhookRequest deps config vars payload).headers
          ("Content-Type") = some ("application/x-www-form-urlencoded"))) ∧
    (config.payload_type = ("x-www-form-urlencoded" : String) →
      canSendBody (strUpper config.method) = false →
      (buildWebhookRequest deps config vars payload).url =
        deps.appendQuery config.url (coerceFlatParams payload) ∧
      (buildWebhookRequest deps config vars payload).rawBody = ("")) ∧
    (config.payload_type ≠ ("param" : String) →
      config.payload_type ≠ ("x-www-form-urlencoded" : String) →
      canSendBody (strUpper config.method) = true →
      (buildWebhookRequest deps config vars payload).url = config.url ∧
      (buildWebhookRequest deps config vars payload).rawBody =
        jsonStringify (match payload with | .undef => .null | p => p) ∧
      (headersHas (renderedHeaders deps config vars) ("content-type") = false →
        headersGet (buildWebhookRequest deps config vars payload).headers
          ("Content-Type") = some ("application/json"))) ∧
    (config.payload_type ≠ ("param" : String) →
      config.payload_type ≠ ("x-www-form-urlencoded" : String) →
      canSendBody (strUpper config.method) = false →
      (buildWebhookRequest deps config vars payload).url = config.url ∧
      (buildWebhookRequest deps config vars payload).rawBody = ("") ∧
      (buildWebhookRequest deps config vars payload).headers =
        renderedHeaders deps config vars) := by
  unfold buildWebhookRequest
  refine ⟨?_, ?_, ?_, ?_, ?_⟩
  · intro hpt
    rw [if_pos hpt]
    exact ⟨rfl, rfl, rfl⟩
  · intro hpt hcan
    have hne : ¬ (config.payload_type = ("param" : String)) := by
      rw [hpt]; decide
    rw [if_neg hne, if_pos hpt, if_pos hcan]
    refine ⟨rfl, rfl, ?_⟩
    intro hno
    show headersGet
      (if headersHas (renderedHeaders deps config vars) ("content-type")
       then renderedHeaders deps config vars
       else headersSet (renderedHeaders deps config vars) ("Content-Type")
         ("application/x-www-form-urlencoded")) ("Content-Type") = _
    rw [if_neg (by rw [hno]; exact Bool.false_ne_true)]
    exact headersGet_set_self _ _ _
  · intro hpt hcan
    have hne : ¬ (config.payload_type = ("param" : String)) := by
      rw [hpt]; decide
    rw [if_neg hne, if_pos hpt,
      if_neg (by rw [hcan]; exact Bool.false_ne_true)]
    exact ⟨rfl, rfl⟩
  · intro hp1 hp2 hcan
    rw [if_neg hp1, if_neg hp2, if_pos hcan]
    refine ⟨rfl, rfl, ?_⟩
    intro hno
    show headersGet
      (if headersHas (renderedHeaders deps config vars) ("content-type")
       then renderedHeaders deps config vars
       else headersSet (renderedHeaders deps config vars) ("Content-Type")
         ("application/json")) ("Content-Type") = _
    rw [if_neg (by rw [hno]; exact Bool.false_ne_true)]
    exact headersGet_set_self _ _ _
  · intro hp1 hp2 hcan
    rw [if_neg hp1, if_neg hp2,
      if_neg (by rw [hcan]; exact Bool.false_ne_true)]
    exact ⟨rfl, rfl, rfl⟩

/-- Witness for C8 at concrete inputs: the `param` configuration appends
the coerced params to the URL with an empty body, and the json+GET
configuration keeps the original URL with an empty body. -/
theorem webhook_request_construction_witness :
    (fixtureParamConfig.payload_type = ("param" : String) ∧
      (buildWebhookRequest fixtureDeps fixtureParamConfig []
          (.obj [(("a"), .num 1)])).url =
        fixtureDeps.appendQuery fixtureParamConfig.url
          (coerceFlatParams (.obj [(("a"), .num 1)])) ∧
      (buildWebhookRequest fixtureDeps fixtureParamConfig []
          (.obj [(("a"), .num 1)])).rawBody = ("") ∧
      (buildWebhookRequest fixtureDeps fixtureParamConfig []
          (.obj [(("a"), .num 1)])).headers =
        renderedHeaders fixtureDeps fixtureParamConfig []) ∧
    (canSendBody (strUpper fixtureJsonGetConfig.method) = false ∧
      (buildWebhookRequest fixtureDeps fixtureJsonGetConfig []
          (.obj [(("a"), .num 1)])).url = fixtureJsonGetConfig.url ∧
      (buildWebhookRequest fixtureDeps fixtureJsonGetConfig []
          (.obj [(("a"), .num 1)])).rawBody = ("") ∧
      (buildWebhookRequest fixtureDeps fixtureJsonGetConfig []
          (.obj [(("a"), .num 1)])).headers =
        renderedHeaders fixtureDeps fixtureJsonGetConfig []) :=
  ⟨⟨rfl, (webhook_request_construction fixtureDeps fixtureParamConfig []
      (.obj [(("a"), .num 1)])).1 rfl⟩,
    ⟨rfl, (webhook_request_construction fixtureDeps fixtureJsonGetConfig []
      (.obj [(("a"), .num 1)])).2.2.2.2 (by decide) (by decide) rfl⟩⟩

/-- Counterexample for C8 as claimed: with `payload_type = json` and
method GET, the payload does not fall back to query parameters — the
request keeps the original URL and an empty body, even though appending
the params would have changed the URL. -/
theorem webhook_json_get_counterexample :
    (buildWebhookRequest fixtureDeps fixtureJsonGetConfig []
        (.obj [(("a"), .num 1)])).url = fixtureJsonGetConfig.url ∧
    (buildWebhookRequest fixtureDeps fixtureJsonGetConfig []
        (.obj [(("a"), .num 1)])).rawBody = ("") ∧
    fixtureDeps.appendQuery fixtureJsonGetConfig.url
        (coerceFlatParams (.obj [(("a"), .num 1)])) ≠
      fixtureJsonGetConfig.url :=
  ⟨rfl, rfl, by decide⟩

end Uptimer

